/-
Verification of the change-set tree construction, diff-resolution and CLI
gateway logic of the vscode-sandbox extension, as a shallow embedding in
Lean 4.

Sources embedded:
  * src/src/tree.ts       (groupByOperation, buildDirectoryHierarchy, toNodes,
                           SandboxTreeDataProvider.getChildren group ordering)
  * src/unnamed/part_001  (cli.ts: execFile, fetchConfig, fetchStatus,
                           runAccept/runReject/runDiff/runSync/runStop/runDelete,
                           spawnDiffStream)
  * src/README.md         (extension.ts excerpt: globToRegex,
                           filterChangesByPatterns, fileExists,
                           openDiffForChange)

JavaScript strings are modelled as Lean `String` (sequences of characters);
`Map` objects are modelled as association lists in insertion order (a `Map`
iterates keys in insertion order, and `set` on an existing key keeps its
position); the filesystem readability probe and the host JSON parser are
oracles passed as function parameters.
-/

import Mathlib

/-- One filesystem change reported by the external tool
(interface `SandboxChangeEntry` in cli.ts).  Fields that are
`string | null | undefined` in TypeScript are `Option String` here
(`none` covers both `null` and `undefined`; JavaScript truthiness tests,
which also reject the empty string, are modelled explicitly where the
code uses them). -/
structure SandboxChangeEntry where
  destination : String
  operation : String
  source : Option String := none
  staged : Option String := none
  tmp_path : Option String := none
  error : Option String := none
deriving DecidableEq, Repr

/-! ## groupByOperation (tree.ts lines 159-167) -/

/-- One step of the `groupByOperation` loop body: append change `c` to the
group keyed by `k`, creating the group at the end if the key is new (a JS
`Map` appends new keys and keeps existing keys in place). -/
def pushGroup (m : List (String × List SandboxChangeEntry)) (k : String)
    (c : SandboxChangeEntry) : List (String × List SandboxChangeEntry) :=
  match m with
  | [] => [(k, [c])]
  | (k', l) :: rest =>
    if k' = k then (k', l ++ [c]) :: rest
    else (k', l) :: pushGroup rest k c

/-- `groupByOperation` from tree.ts: partition the change list by the
`operation` string into a `Map` in first-seen key order, preserving the
input order inside each group. -/
def groupByOperation (changes : List SandboxChangeEntry) :
    List (String × List SandboxChangeEntry) :=
  changes.foldl (fun m c => pushGroup m c.operation c) []

/-- The operation strings of a change list in first-seen order
(the key order of the `Map` built by `groupByOperation`). -/
def firstSeenOps (changes : List SandboxChangeEntry) : List String :=
  changes.foldl (fun ks c => if c.operation ∈ ks then ks else ks ++ [c.operation]) []

/-! ## CLI gateway (cli.ts, src/unnamed/part_001) -/

/-- The result captured by `execFile` (cli.ts lines 60-69): buffered stdout
and stderr plus the exit code passed to the `close` event handler. -/
structure ExecResult where
  stdout : String
  stderr : String
  code : Int
deriving DecidableEq, Repr

/-- `execFile`'s `close` handler (cli.ts line 67): the raw close code is
`number | null` (`null` when the child was terminated by a signal) and the
code resolves `code ?? 0`. -/
def execFileResult (stdout stderr : String) (rawCode : Option Int) : ExecResult :=
  { stdout := stdout, stderr := stderr, code := rawCode.getD 0 }

/-- `spawnDiffStream`'s `close` handler (cli.ts line 142) reports
`code ?? 0` to the caller-supplied close sink. -/
def spawnDiffStreamCloseCode (rawCode : Option Int) : Int :=
  rawCode.getD 0

/-- JavaScript `a || b` on strings: `b` when `a` is falsy (empty), else `a`. -/
def jsOrString (a b : String) : String :=
  if a.isEmpty then b else a

/-- `runAccept` (cli.ts lines 106-111), given the captured process result:
throw `stderr || stdout` when the exit code is non-zero, else succeed. -/
def runAccept (res : ExecResult) : Except String Unit :=
  if res.code ≠ 0 then .error (jsOrString res.stderr res.stdout) else .ok ()

/-- `runReject` (cli.ts lines 113-118): same completion check as `runAccept`. -/
def runReject (res : ExecResult) : Except String Unit :=
  if res.code ≠ 0 then .error (jsOrString res.stderr res.stdout) else .ok ()

/-- `runDiff` (cli.ts lines 120-126): same check, returning stdout on success. -/
def runDiff (res : ExecResult) : Except String String :=
  if res.code ≠ 0 then .error (jsOrString res.stderr res.stdout) else .ok res.stdout

/-- `runSync` (cli.ts lines 145-150). -/
def runSync (res : ExecResult) : Except String Unit :=
  if res.code ≠ 0 then .error (jsOrString res.stderr res.stdout) else .ok ()

/-- `runStop` (cli.ts lines 152-157). -/
def runStop (res : ExecResult) : Except String Unit :=
  if res.code ≠ 0 then .error (jsOrString res.stderr res.stdout) else .ok ()

/-- `runDelete` (cli.ts lines 159-164). -/
def runDelete (res : ExecResult) : Except String Unit :=
  if res.code ≠ 0 then .error (jsOrString res.stderr res.stdout) else .ok ()

/-! ### A model of the host JSON parser

`JSON.parse` is host (JavaScript runtime) functionality, not repository
code, so it is passed to `fetchConfig`/`fetchStatus` as an oracle of type
`String → Option Json` (`none` = `SyntaxError`).  For closed statements a
concrete executable parser `jsonParse` implementing the JSON grammar
(ECMA-404, as accepted by `JSON.parse`) is provided below.  Numbers keep
their source lexeme (no floating-point semantics is needed by any claim);
`\uXXXX` escapes denoting unpaired surrogates are mapped to `Char.ofNat`'s
fallback, which no claim exercises. -/

/-- A parsed JSON value. -/
inductive Json where
  | null : Json
  | bool : Bool → Json
  | num : String → Json
  | str : String → Json
  | arr : List Json → Json
  | obj : List (String × Json) → Json
deriving Repr

/-- The opening brace character (code point 123). -/
def lbraceChar : Char := Char.ofNat 123

/-- The closing brace character (code point 125). -/
def rbraceChar : Char := Char.ofNat 125

/-- JSON insignificant whitespace (space, tab, line feed, carriage return). -/
def isJsonWs (c : Char) : Bool :=
  c == ' ' || c == '\t' || c == '\n' || c == '\r'

/-- Skip leading JSON whitespace. -/
def skipWs : List Char → List Char
  | [] => []
  | c :: rest => if isJsonWs c then skipWs rest else c :: rest

/-- Hexadecimal digit value. -/
def hexVal (c : Char) : Option Nat :=
  if '0' ≤ c ∧ c ≤ '9' then some (c.toNat - '0'.toNat)
  else if 'a' ≤ c ∧ c ≤ 'f' then some (c.toNat - 'a'.toNat + 10)
  else if 'A' ≤ c ∧ c ≤ 'F' then some (c.toNat - 'A'.toNat + 10)
  else none

/-- Parse the body of a JSON string after the opening quote, returning the
decoded characters and the remaining input after the closing quote. -/
def parseStringBody : List Char → Option (List Char × List Char)
  | [] => none
  | '"' :: rest => some ([], rest)
  | '\\' :: rest =>
    match rest with
    | [] => none
    | e :: rest' =>
      let simpleEsc : Option Char :=
        if e == '"' then some '"'
        else if e == '\\' then some '\\'
        else if e == '/' then some '/'
        else if e == 'b' then some (Char.ofNat 8)
        else if e == 'f' then some (Char.ofNat 12)
        else if e == 'n' then some '\n'
        else if e == 'r' then some '\r'
        else if e == 't' then some '\t'
        else none
      match simpleEsc with
      | some c =>
        match parseStringBody rest' with
        | some (cs, rem) => some (c :: cs, rem)
        | none => none
      | none =>
        if e == 'u' then
          match rest' with
          | a :: b :: c :: d :: rest'' =>
            match hexVal a, hexVal b, hexVal c, hexVal d with
            | some va, some vb, some vc, some vd =>
              match parseStringBody rest'' with
              | some (cs, rem) =>
                some (Char.ofNat (((va * 16 + vb) * 16 + vc) * 16 + vd) :: cs, rem)
              | none => none
            | _, _, _, _ => none
          | _ => none
        else none
  | c :: rest =>
    if c.toNat < 32 then none
    else
      match parseStringBody rest with
      | some (cs, rem) => some (c :: cs, rem)
      | none => none

/-- ASCII decimal digit test. -/
def isDigitChar (c : Char) : Bool := '0' ≤ c && c ≤ '9'

/-- Parse a JSON number, returning its lexeme and the remaining input. -/
def parseNumberLexeme (s : List Char) : Option (List Char × List Char) :=
  let (neg, s1) := match s with
    | '-' :: t => ([('-' : Char)], t)
    | _ => ([], s)
  match s1 with
  | [] => none
  | c :: t =>
    if c == '0' then
      let (ip, s2) := ([c], t)
      afterInt neg ip s2
    else if isDigitChar c then
      let ds := t.takeWhile isDigitChar
      afterInt neg (c :: ds) (t.dropWhile isDigitChar)
    else none
where
  /-- Optional fraction and exponent after the integer part. -/
  afterInt (neg ip : List Char) (s2 : List Char) : Option (List Char × List Char) :=
    let (fp, s3) : List Char × List Char := match s2 with
      | '.' :: u =>
        let ds := u.takeWhile isDigitChar
        if ds.isEmpty then ([], s2) else ('.' :: ds, u.dropWhile isDigitChar)
      | _ => ([], s2)
    let fracOk : Bool := match s2 with
      | '.' :: u => !(u.takeWhile isDigitChar).isEmpty
      | _ => true
    if !fracOk then none
    else
      match s3 with
      | e :: u =>
        if e == 'e' || e == 'E' then
          let (sgn, u1) : List Char × List Char := match u with
            | '+' :: v => (['+'], v)
            | '-' :: v => (['-'], v)
            | _ => ([], u)
          let ds := u1.takeWhile isDigitChar
          if ds.isEmpty then none
          else some (neg ++ ip ++ fp ++ (e :: sgn) ++ ds, u1.dropWhile isDigitChar)
        else some (neg ++ ip ++ fp, s3)
      | [] => some (neg ++ ip ++ fp, s3)

mutual

/-- Parse one JSON value (after skipping leading whitespace).  `fuel`
bounds the nesting depth; every nesting level consumes at least one input
character, so `input.length + 1` is always enough. -/
def parseJsonValue : Nat → List Char → Option (Json × List Char)
  | 0, _ => none
  | Nat.succ fuel, s =>
    match skipWs s with
    | [] => none
    | c :: rest =>
      if c = '"' then
        match parseStringBody rest with
        | some (cs, rem) => some (.str (String.mk cs), rem)
        | none => none
      else if c = lbraceChar then
        match skipWs rest with
        | d :: rest' =>
          if d = rbraceChar then some (.obj [], rest')
          else
            match parseJsonMembers fuel (d :: rest') with
            | some (fields, rem) => some (.obj fields, rem)
            | none => none
        | [] => none
      else if c = '[' then
        match skipWs rest with
        | d :: rest' =>
          if d = ']' then some (.arr [], rest')
          else
            match parseJsonElems fuel (d :: rest') with
            | some (elems, rem) => some (.arr elems, rem)
            | none => none
        | [] => none
      else if "true".toList.isPrefixOf (c :: rest) then
        some (.bool true, (c :: rest).drop 4)
      else if "false".toList.isPrefixOf (c :: rest) then
        some (.bool false, (c :: rest).drop 5)
      else if "null".toList.isPrefixOf (c :: rest) then
        some (.null, (c :: rest).drop 4)
      else
        match parseNumberLexeme (c :: rest) with
        | some (lex, rem) => some (.num (String.mk lex), rem)
        | none => none

/-- Parse the comma-separated elements of a non-empty JSON array
(terminated by `]`). -/
def parseJsonElems : Nat → List Char → Option (List Json × List Char)
  | 0, _ => none
  | Nat.succ fuel, s =>
    match parseJsonValue fuel s with
    | none => none
    | some (v, rest) =>
      match skipWs rest with
      | ',' :: rest' =>
        match parseJsonElems fuel rest' with
        | some (vs, rem) => some (v :: vs, rem)
        | none => none
      | ']' :: rest' => some ([v], rest')
      | _ => none

/-- Parse the comma-separated members of a non-empty JSON object
(terminated by the closing brace). -/
def parseJsonMembers : Nat → List Char → Option (List (String × Json) × List Char)
  | 0, _ => none
  | Nat.succ fuel, s =>
    match skipWs s with
    | '"' :: rest =>
      match parseStringBody rest with
      | none => none
      | some (key, rest1) =>
        match skipWs rest1 with
        | ':' :: rest2 =>
          match parseJsonValue fuel rest2 with
          | none => none
          | some (v, rest3) =>
            match skipWs rest3 with
            | ',' :: rest4 =>
              match parseJsonMembers fuel rest4 with
              | some (fields, rem) => some ((String.mk key, v) :: fields, rem)
              | none => none
            | d :: rest4 =>
              if d = rbraceChar then some ([(String.mk key, v)], rest4)
              else none
            | [] => none
        | _ => none
    | _ => none

end

/-- The host `JSON.parse`, modelled: parse one value surrounded by
insignificant whitespace; anything else is a `SyntaxError` (`none`). -/
def jsonParse (s : String) : Option Json :=
  match parseJsonValue (s.toList.length + 1) s.toList with
  | some (v, rest) => if (skipWs rest).isEmpty then some v else none
  | none => none

/-- JavaScript member access `v[key]` on a parsed JSON value:
throws a `TypeError` on `null` (`.error ()`), yields the property value on
objects (`JSON.parse` keeps the last of duplicate keys), and `undefined`
(`none`) on every other primitive (property access on a primitive boxes it
and finds no own property). -/
def jsGetField : Json → String → Except Unit (Option Json)
  | .null, _ => .error ()
  | .obj fields, k => .ok ((fields.reverse).lookup k)
  | _, _ => .ok none

/-- The raw result of `fetchConfig` (cli.ts lines 77-92): the four
properties are read off the parsed JSON without validation, so each field
is the raw JSON value (`none` = the property was `undefined`). -/
structure SandboxConfigInfoRaw where
  name : Option Json
  storage_dir : Option Json
  upper_cwd : Option Json
  overlay_cwd : Option Json

/-- `fetchConfig` (cli.ts lines 77-92), given the host JSON parser and the
captured process result: inside the `try` block it parses stdout and reads
the four properties; any failure there (JSON `SyntaxError` or the
`TypeError` raised by property access on `null`) is caught and re-thrown
as the parse-failure message built from `stderr || stdout`.  The exit code
is never consulted. -/
def fetchConfig (jsonParser : String → Option Json) (res : ExecResult) :
    Except String SandboxConfigInfoRaw :=
  match jsonParser res.stdout with
  | none => .error ("Failed to parse sandbox config JSON: " ++ jsOrString res.stderr res.stdout)
  | some j =>
    match jsGetField j "name", jsGetField j "storage_dir",
        jsGetField j "upper_cwd", jsGetField j "overlay_cwd" with
    | .ok n, .ok s, .ok u, .ok o =>
      .ok { name := n, storage_dir := s, upper_cwd := u, overlay_cwd := o }
    | _, _, _, _ =>
      .error ("Failed to parse sandbox config JSON: " ++ jsOrString res.stderr res.stdout)

/-- `fetchStatus` (cli.ts lines 94-104), given the host JSON parser and
the captured process result: inside the `try` block it parses stdout and
returns `parsed.changes ?? []`; the returned value is raw JSON because the
TypeScript performs no validation (`[]` stands for the synthesized empty
array).  A JSON `SyntaxError`, or the `TypeError` raised by
`null.changes`, is caught and re-thrown as the parse-failure message built
from `stderr || stdout`.  The exit code is never consulted. -/
def fetchStatus (jsonParser : String → Option Json) (res : ExecResult) :
    Except String Json :=
  match jsonParser res.stdout with
  | none => .error ("Failed to parse sandbox status JSON: " ++ jsOrString res.stderr res.stdout)
  | some j =>
    match jsGetField j "changes" with
    | .error _ => .error ("Failed to parse sandbox status JSON: " ++ jsOrString res.stderr res.stdout)
    | .ok none => .ok (Json.arr [])
    | .ok (some v) =>
      match v with
      | .null => .ok (Json.arr [])
      | v => .ok v

/-! ## buildDirectoryHierarchy (tree.ts lines 196-249)

The nested `Map<string, Map | SandboxChangeEntry>` built by
`buildDirectoryHierarchy` is modelled by the mutual inductive
`DirTree`/`DirForest`: a `DirForest` is the map, as an association list in
insertion order, and each value is either a leaf (one change entry) or an
interior node (a nested map). -/

mutual
/-- A value of the nested map: a leaf change entry or an interior map. -/
inductive DirTree where
  | leaf : SandboxChangeEntry → DirTree
  | node : DirForest → DirTree
deriving Repr

/-- The nested map itself: `(segment, value)` pairs in insertion order. -/
inductive DirForest where
  | nil : DirForest
  | cons : String → DirTree → DirForest → DirForest
deriving Repr
end

/-- `Map.get`: the value stored at a key, if present. -/
def lookupF : DirForest → String → Option DirTree
  | .nil, _ => none
  | .cons k t rest, key => if k = key then some t else lookupF rest key

/-- `Map.set`: replace the value at an existing key in place, or append a
new key at the end. -/
def setF : DirForest → String → DirTree → DirForest
  | .nil, key, v => .cons key v .nil
  | .cons k t rest, key, v =>
    if k = key then .cons k v rest else .cons k t (setF rest key v)

/-- JavaScript truthiness of a `string | null | undefined` value:
false for `null`/`undefined` and for the empty string. -/
def jsTruthy : Option String → Bool
  | none => false
  | some s => !s.toList.isEmpty

/-- Split a character list on `/` exactly as JavaScript
`String.prototype.split('/')` does (keeping empty segments). -/
def splitSlash : List Char → List (List Char)
  | [] => [[]]
  | c :: rest =>
    if c = '/' then [] :: splitSlash rest
    else
      match splitSlash rest with
      | [] => [[c]]
      | seg :: segs => (c :: seg) :: segs

/-- The path segments of one entry (tree.ts lines 199-203): strip the
`cwd + "/"` prefix from `destination` when `cwd` is truthy and the prefix
matches (the code drops `cwd.length + 1` characters, which equals the
prefix), split the remainder on `/` and drop empty segments. -/
def pathParts (cwd : Option String) (dest : String) : List String :=
  let destCs := dest.toList
  let path : List Char :=
    match cwd with
    | some w =>
      if !w.toList.isEmpty && (w.toList ++ ['/']).isPrefixOf destCs
      then destCs.drop (w.toList.length + 1)
      else destCs
    | none => destCs
  ((splitSlash path).filter (fun seg => !seg.isEmpty)).map (fun seg => String.mk seg)

/-- One iteration group of the insertion loop (tree.ts lines 204-222),
inserting one entry's segment list into the nested map: the last segment
receives the leaf, intermediate segments get their existing interior map,
or a fresh empty map when the segment is missing or currently a leaf. -/
def insertParts (m : DirForest) (ps : List String) (c : SandboxChangeEntry) :
    DirForest :=
  match ps with
  | [] => m
  | [p] => setF m p (.leaf c)
  | p :: rest =>
    let sub : DirForest :=
      match lookupF m p with
      | some (.node l) => l
      | _ => .nil
    setF m p (.node (insertParts sub rest c))

/-- `buildDirectoryHierarchy` (tree.ts lines 196-223): fold every change
into the nested map.  `cwd` is the optional workspace root. -/
def buildDirectoryHierarchy (changes : List SandboxChangeEntry) (cwd : Option String) :
    DirForest :=
  changes.foldl (fun root c => insertParts root (pathParts cwd c.destination) c) .nil

mutual
/-- All `(root-to-leaf segment path, entry)` pairs under one keyed value. -/
def leafPathsT (k : String) : DirTree → List (List String × SandboxChangeEntry)
  | .leaf c => [([k], c)]
  | .node f => (leafPathsF f).map (fun pr => (k :: pr.1, pr.2))

/-- All `(root-to-leaf segment path, entry)` pairs of a nested map. -/
def leafPathsF : DirForest → List (List String × SandboxChangeEntry)
  | .nil => []
  | .cons k t rest => leafPathsT k t ++ leafPathsF rest
end

mutual
/-- Every key (segment name) occurring anywhere under one value. -/
def namesT : DirTree → List String
  | .leaf _ => []
  | .node f => namesF f

/-- Every key (segment name) occurring anywhere in a nested map. -/
def namesF : DirForest → List String
  | .nil => []
  | .cons k t rest => k :: (namesT t ++ namesF rest)
end

/-- Joining path segments with `/` (the claim's reading of a
root-to-leaf path). -/
def joinSegs : List String → String
  | [] => ""
  | [s] => s
  | s :: rest => s ++ "/" ++ joinSegs rest

/-- The claim's strip rule: `destination` with the `cwd + "/"` prefix
removed when `destination` starts with it, and unmodified otherwise. -/
def stripCwdSpec (cwd : String) (dest : String) : String :=
  if (cwd.toList ++ ['/']).isPrefixOf dest.toList
  then String.mk (dest.toList.drop (cwd.toList.length + 1))
  else dest

/-! ## Rendering (tree.ts: toNodes, lines 225-246, and getChildren group
ordering, lines 48-70) -/

/-- A rendered tree node: an interior folder node (name and rendered
children) or a leaf change node (label and entry), as built by `toNodes` /
`nodeFromChange`. -/
inductive RNode where
  | folder : String → List RNode → RNode
  | change : String → SandboxChangeEntry → RNode
deriving Repr

/-- `nodeFromChange`'s label (tree.ts line 133): `source -> destination`
for a rename with a truthy source, else the destination. -/
def nodeLabel (c : SandboxChangeEntry) : String :=
  if c.operation = "rename" && jsTruthy c.source
  then (c.source.getD "") ++ " -> " ++ c.destination
  else c.destination

/-- One step of the stable insertion sort modelling
`entries.sort((a, b) => a[0].localeCompare(b[0]))`: `x` is placed before
the first element it compares strictly below, i.e. after every earlier
element it ties with (JavaScript's sort is stable and consults only the
keys through the comparator). -/
def insertOrdP {β : Type} (lcmp : String → String → Ordering) :
    List (String × β) → (String × β) → List (String × β)
  | [], x => [x]
  | y :: ys, x =>
    if lcmp x.1 y.1 = .lt then x :: y :: ys else y :: insertOrdP lcmp ys x

/-- The stable key-comparator sort of a level's `(name, value)` entries. -/
def sortPairs {β : Type} (lcmp : String → String → Ordering)
    (l : List (String × β)) : List (String × β) :=
  l.foldl (insertOrdP lcmp) []

mutual
/-- Render one keyed map value (`toNodes`'s per-entry branch): an interior
map becomes a folder node with recursively rendered, key-sorted children;
a change entry becomes a leaf node labelled by `nodeFromChange`. -/
def renderT (lcmp : String → String → Ordering) (k : String) : DirTree → RNode
  | .leaf c => .change (nodeLabel c) c
  | .node f => .folder k ((sortPairs lcmp (renderF lcmp f)).map Prod.snd)

/-- Render every entry of a map, keeping each entry's key alongside its
rendered node (rendering is pointwise, so rendering before sorting equals
the source's sort-then-render: the comparator consults keys only and the
sort is stable). -/
def renderF (lcmp : String → String → Ordering) : DirForest → List (String × RNode)
  | .nil => []
  | .cons k t rest => (k, renderT lcmp k t) :: renderF lcmp rest
end

/-- `toNodes(tree)` (tree.ts lines 225-248): the rendered, key-sorted node
list of a nested map. -/
def toNodes (lcmp : String → String → Ordering) (f : DirForest) : List RNode :=
  (sortPairs lcmp (renderF lcmp f)).map Prod.snd

/-- The fixed group priority order of `getChildren` (tree.ts line 49). -/
def fixedOpOrder : List String := ["error", "remove", "rename", "modify", "create"]

/-- The operation groups in presentation order (tree.ts lines 55-69):
first the fixed-priority operations that are present with a non-empty
group, then every remaining group in map (first-seen) order. -/
def operationGroups (changes : List SandboxChangeEntry) :
    List (String × List SandboxChangeEntry) :=
  (fixedOpOrder.filterMap (fun op =>
      match (groupByOperation changes).lookup op with
      | some l => if l.length = 0 then none else some (op, l)
      | none => none))
  ++ (groupByOperation changes).filter (fun kv => !(fixedOpOrder.contains kv.1))

/-! ## Diff resolver (README.md extension.ts excerpt: fileExists,
createTempEmptyFile, openDiffForChange, lines 839-891)

The filesystem read-access probe (`fs.accessSync`) is an oracle
`fs : String → Bool`; a synthesized empty temp file is represented by
`FileRef.emptyTemp` (its unique temp name is I/O and not modelled). -/

/-- One side of a two-pane diff: an existing file path, or a freshly
synthesized empty temp file. -/
inductive FileRef where
  | real : String → FileRef
  | emptyTemp : FileRef
deriving DecidableEq, Repr

/-- `fileExists` (README.md lines 839-847): false for `null`/`undefined`
and for the empty string (JS truthiness guard `if (!p) return false`),
else the read-access probe. -/
def fileExists (fs : String → Bool) : Option String → Bool
  | none => false
  | some s => if s.toList.isEmpty then false else fs s

/-- JavaScript `a || b` over optional strings, as in
`c.staged || c.tmp_path || c.destination`. -/
def jsOrOpt (a : Option String) (b : String) : String :=
  match a with
  | none => b
  | some s => if s.toList.isEmpty then b else s

/-- `openDiffForChange`'s side resolution (README.md lines 856-891): the
left/right file references handed to the two-pane diff, per operation. -/
def openDiffForChange (fs : String → Bool) (c : SandboxChangeEntry) :
    FileRef × FileRef :=
  let overlayPath := jsOrOpt c.staged (jsOrOpt c.tmp_path c.destination)
  let destExists := fileExists fs (some c.destination)
  let srcExists := fileExists fs c.source
  if c.operation = "create" then
    (FileRef.emptyTemp, FileRef.real overlayPath)
  else if c.operation = "remove" then
    (if fileExists fs (some c.destination) then FileRef.real c.destination
     else if srcExists then FileRef.real (c.source.getD "")
     else FileRef.emptyTemp,
     FileRef.emptyTemp)
  else if c.operation = "rename" then
    (if srcExists then FileRef.real (c.source.getD "")
     else if destExists then FileRef.real c.destination
     else FileRef.emptyTemp,
     FileRef.real overlayPath)
  else
    (if destExists then FileRef.real c.destination
     else if srcExists then FileRef.real (c.source.getD "")
     else FileRef.emptyTemp,
     FileRef.real overlayPath)

/-- The staged/overlay copy as the spec words it: the first present
(non-null, non-empty) of the `staged` field, the `tmp_path` field, and the
destination itself. -/
def stagedOverlayCopySpec (c : SandboxChangeEntry) : String :=
  jsOrOpt c.staged (jsOrOpt c.tmp_path c.destination)

/-- The diff-resolver operation table exactly as the spec states it
(spec §4.3), row by row, with "present"/"exists" read as the code's
truthy existence probe. -/
def diffSidesSpec (fs : String → Bool) (c : SandboxChangeEntry) :
    FileRef × FileRef :=
  if c.operation = "create" then
    (FileRef.emptyTemp, FileRef.real (stagedOverlayCopySpec c))
  else if c.operation = "remove" then
    (if fileExists fs (some c.destination) then FileRef.real c.destination
     else if fileExists fs c.source then FileRef.real (c.source.getD "")
     else FileRef.emptyTemp,
     FileRef.emptyTemp)
  else if c.operation = "rename" then
    (if fileExists fs c.source then FileRef.real (c.source.getD "")
     else if fileExists fs (some c.destination) then FileRef.real c.destination
     else FileRef.emptyTemp,
     FileRef.real (stagedOverlayCopySpec c))
  else
    (if fileExists fs (some c.destination) then FileRef.real c.destination
     else if fileExists fs c.source then FileRef.real (c.source.getD "")
     else FileRef.emptyTemp,
     FileRef.real (stagedOverlayCopySpec c))

/-! ## Glob matching (README.md extension.ts excerpt: globToRegex lines
803-810, filterChangesByPatterns lines 812-815)

`globToRegex` builds a regex source string by four global replacements and
anchors it with `^`/`$`; the construction and the host regex engine are
modelled at the character-list level: the replacement passes are mirrored
pass by pass, the resulting regex source is parsed into the fragment of
JavaScript regex syntax it can contain (escaped literals, plain literals,
`[^/]*`, `.*`, and the `?` quantifier left unescaped by the code), and
matching of that fragment is evaluated by an executable matcher
(`rmatch`); `new RegExp` throwing a `SyntaxError` is `none`. -/

/-- The character class escaped by `globToRegex`'s first replacement
(`/[.+^${}()|[\]\\]/g`). -/
def regexEscapeSet : List Char :=
  ['.', '+', '^', '$', lbraceChar, rbraceChar, '(', ')', '|', '[', ']', '\\']

/-- First pass: `glob.replace(/[.+^${}()|[\]\\]/g, '\\$&')`, escaping each
special character. -/
def escapeSpecials : List Char → List Char
  | [] => []
  | c :: r => (if c ∈ regexEscapeSet then ['\\', c] else [c]) ++ escapeSpecials r

/-- The sentinel string `::DOUBLE_STAR::` used between the passes. -/
def sentinelChars : List Char := "::DOUBLE_STAR::".toList

/-- Second pass: `.replace(/\*\*/g, '::DOUBLE_STAR::')`, left-to-right and
non-overlapping, as a global string replacement proceeds. -/
def replaceDoubleStar : List Char → List Char
  | [] => []
  | [c] => [c]
  | c :: d :: t =>
    if c = '*' ∧ d = '*' then sentinelChars ++ replaceDoubleStar t
    else c :: replaceDoubleStar (d :: t)

/-- Third pass: `.replace(/\*/g, '[^/]*')` on the remaining single stars. -/
def starExpand : List Char → List Char
  | [] => []
  | c :: r => (if c = '*' then ['[', '^', '/', ']', '*'] else [c]) ++ starExpand r

/-- Fourth pass, fuelled for structural recursion: at each position a
sentinel occurrence is replaced by `.*` and skipped whole (global
replacement is left-to-right and non-overlapping), else one character is
copied.  The fuel only bounds the number of positions visited; with fuel
at least the input length it never runs out. -/
def rsFuel : Nat → List Char → List Char
  | _, [] => []
  | 0, s => s
  | fuel + 1, c :: t =>
    if sentinelChars.isPrefixOf (c :: t) then
      '.' :: '*' :: rsFuel fuel ((c :: t).drop sentinelChars.length)
    else c :: rsFuel fuel t

/-- Fourth pass: `.replace(/::DOUBLE_STAR::/g, '.*')`. -/
def replaceSentinel (s : List Char) : List Char := rsFuel s.length s

/-- One item of the anchored regex fragment `globToRegex` can produce:
a literal character (escaped or plain), an optional literal (a literal
under the unescaped `?` quantifier), `[^/]*`, or `.*`. -/
inductive RItem where
  | lit : Char → RItem
  | optLit : Char → RItem
  | nonSlashStar : RItem
  | dotStar : RItem
deriving DecidableEq, Repr

/-- Raw regex metacharacters outside the fragment: a regex source
containing one of these bare (which `globToRegex` cannot produce) is not
modelled and parses to `none`. -/
def rawMetaChars : List Char :=
  ['.', '*', '+', '?', '^', '$', lbraceChar, rbraceChar, '(', ')', '|', '[', ']']

/-- The tokenizer mode while scanning the regex source: scanning normally,
after a backslash, at positions 1-4 inside a `[^/]*` token, after a
bare `.` (which only `globToRegex`'s `.*` token can produce), or right
after a laziness marker `?` (where a further quantifier is a syntax
error). -/
inductive PMode where
  | norm : PMode
  | esc : PMode
  | cls1 : PMode
  | cls2 : PMode
  | cls3 : PMode
  | cls4 : PMode
  | dot : PMode
  | lazy : PMode
deriving DecidableEq, Repr

/-- Scan one character of the regex source.  The unescaped `?` is a
quantifier: applied to a preceding literal it makes it optional, applied
to a starred atom or an optional it is a laziness marker (same matched
language), and with no preceding atom, or right after a laziness marker,
`new RegExp` throws (`none`, "nothing to repeat").  A bare metacharacter
outside the fragment `globToRegex` can produce is not modelled (`none`). -/
def parseChar : List RItem × PMode → Char → Option (List RItem × PMode) :=
  fun p c =>
    match p.2 with
    | .esc => some (p.1 ++ [RItem.lit c], .norm)
    | .cls1 => if c = '^' then some (p.1, .cls2) else none
    | .cls2 => if c = '/' then some (p.1, .cls3) else none
    | .cls3 => if c = ']' then some (p.1, .cls4) else none
    | .cls4 => if c = '*' then some (p.1 ++ [RItem.nonSlashStar], .norm) else none
    | .dot => if c = '*' then some (p.1 ++ [RItem.dotStar], .norm) else none
    | .norm =>
      if c = '\\' then some (p.1, .esc)
      else if c = '[' then some (p.1, .cls1)
      else if c = '.' then some (p.1, .dot)
      else if c = '?' then
        match p.1.getLast? with
        | none => none
        | some (RItem.lit d) => some (p.1.dropLast ++ [RItem.optLit d], .norm)
        | some _ => some (p.1, .lazy)
      else if c ∈ rawMetaChars then none
      else some (p.1 ++ [RItem.lit c], .norm)
    | .lazy =>
      if c = '\\' then some (p.1, .esc)
      else if c = '[' then some (p.1, .cls1)
      else if c = '.' then some (p.1, .dot)
      else if c ∈ rawMetaChars then none
      else some (p.1 ++ [RItem.lit c], .norm)

/-- Parse the regex source built by `globToRegex` (between the `^`/`$`
anchors) into regex items: scan every character; the scan must end in
normal mode or right after a laziness marker (a trailing `\\`, or a
partial token, is a syntax error). -/
def parseRegex (s : List Char) (acc : List RItem) : Option (List RItem) :=
  match s.foldl (fun st c => st.bind (fun p => parseChar p c)) (some (acc, PMode.norm)) with
  | some (items, .norm) => some items
  | some (items, .lazy) => some items
  | _ => none

/-- `globToRegex` (README.md lines 803-810): the four passes, parsed into
the regex fragment; `none` models `new RegExp` throwing. -/
def globToRegex (glob : String) : Option (List RItem) :=
  parseRegex
    (replaceSentinel (starExpand (replaceDoubleStar (escapeSpecials glob.toList)))) []

/-- The suffixes reachable from `s` by consuming a (possibly empty) run of
non-`/` characters — the states `[^/]*` can leave behind. -/
def nonSlashTails : List Char → List (List Char)
  | [] => [[]]
  | c :: rest => (c :: rest) :: (if c = '/' then [] else nonSlashTails rest)

/-- The ECMAScript line terminators: LF, CR, LINE SEPARATOR (U+2028) and
PARAGRAPH SEPARATOR (U+2029) — the characters the `.` of a `RegExp` built
without flags does not match. -/
def isLineTerminator (c : Char) : Bool :=
  c == Char.ofNat 10 || c == Char.ofNat 13 ||
    c == Char.ofNat 8232 || c == Char.ofNat 8233

/-- The suffixes reachable from `s` by consuming a (possibly empty) run of
non-line-terminator characters — the states `.*` can leave behind
(`globToRegex` builds its `RegExp` with no flags, so `.` excludes line
terminators). -/
def dotTails : List Char → List (List Char)
  | [] => [[]]
  | c :: rest => (c :: rest) :: (if isLineTerminator c then [] else dotTails rest)

/-- Whole-string matching of the regex fragment (the anchored
`r.test(destination)`): greedy versus lazy quantifiers cannot change
whether a match exists, so items denote their matched languages directly;
the `.` of `.*` excludes line terminators, the `[^/]*` class does not. -/
def rmatch : List RItem → List Char → Bool
  | [], s => s.isEmpty
  | .lit _ :: _, [] => false
  | .lit c :: is, x :: xs => c == x && rmatch is xs
  | .optLit c :: is, s =>
    rmatch is s ||
      (match s with
       | [] => false
       | x :: xs => c == x && rmatch is xs)
  | .nonSlashStar :: is, s => (nonSlashTails s).any (fun t => rmatch is t)
  | .dotStar :: is, s => (dotTails s).any (fun t => rmatch is t)

/-- `filterChangesByPatterns` (README.md lines 812-815): translate every
pattern first (`patterns.map(globToRegex)` — one invalid pattern throws
for the whole call, hence `none`), then keep the changes whose destination
at least one regex matches. -/
def filterChangesByPatterns (changes : List SandboxChangeEntry)
    (patterns : List String) : Option (List SandboxChangeEntry) :=
  match patterns.mapM globToRegex with
  | none => none
  | some regexes =>
    some (changes.filter (fun c => regexes.any (fun r => rmatch r c.destination.toList)))

/-- The matcher the spec's words describe: `*` matches any run within one
segment, `**` matches any run across segments, every other character
matches itself literally, anchored to the whole destination.  The items
are interpreted by `rmatch`, so the run `**` matches is a run of
non-line-terminator characters, as in the code's unflagged `RegExp`. -/
def specGlobItems : List Char → List RItem
  | [] => []
  | [c] => if c = '*' then [RItem.nonSlashStar] else [RItem.lit c]
  | c :: d :: rest =>
    if c = '*' ∧ d = '*' then RItem.dotStar :: specGlobItems rest
    else if c = '*' then RItem.nonSlashStar :: specGlobItems (d :: rest)
    else RItem.lit c :: specGlobItems (d :: rest)

theorem firstSeenOps_append (l : List SandboxChangeEntry) (c : SandboxChangeEntry) :
    firstSeenOps (l ++ [c]) =
      if c.operation ∈ firstSeenOps l then firstSeenOps l
      else firstSeenOps l ++ [c.operation] := by
  simp [firstSeenOps, List.foldl_append]

theorem mem_firstSeenOps (l : List SandboxChangeEntry) (op : String) :
    op ∈ firstSeenOps l ↔ ∃ c ∈ l, c.operation = op := by
  induction l using List.reverseRecOn with
  | nil => simp [firstSeenOps]
  | append_singleton l c ih =>
    rw [firstSeenOps_append]
    by_cases h : c.operation ∈ firstSeenOps l
    · rw [if_pos h]
      constructor
      · intro hop
        rcases ih.mp hop with ⟨d, hd, hdo⟩
        exact ⟨d, by simp [hd], hdo⟩
      · rintro ⟨d, hd, hdo⟩
        rcases List.mem_append.mp hd with hd' | hd'
        · exact ih.mpr ⟨d, hd', hdo⟩
        · simp only [List.mem_singleton] at hd'
          subst hd'; rw [← hdo] at ih ⊢; exact h
    · rw [if_neg h]
      constructor
      · intro hop
        rcases List.mem_append.mp hop with h' | h'
        · rcases ih.mp h' with ⟨d, hd, hdo⟩
          exact ⟨d, by simp [hd], hdo⟩
        · simp only [List.mem_singleton] at h'
          exact ⟨c, by simp, h'.symm⟩
      · rintro ⟨d, hd, hdo⟩
        rcases List.mem_append.mp hd with hd' | hd'
        · exact List.mem_append.mpr (.inl (ih.mpr ⟨d, hd', hdo⟩))
        · simp only [List.mem_singleton] at hd'
          subst hd'; simp [hdo]

theorem firstSeenOps_nodup (l : List SandboxChangeEntry) :
    (firstSeenOps l).Nodup := by
  induction l using List.reverseRecOn with
  | nil => simp [firstSeenOps]
  | append_singleton l c ih =>
    rw [firstSeenOps_append]
    by_cases h : c.operation ∈ firstSeenOps l
    · rw [if_pos h]; exact ih
    · rw [if_neg h]
      simpa [List.nodup_append] using ⟨ih, h⟩

theorem pushGroup_map_fun (ks : List String) (hnd : ks.Nodup)
    (f : String → List SandboxChangeEntry)
    (key : String) (cc : SandboxChangeEntry) :
    pushGroup (ks.map (fun k => (k, f k))) key cc =
      if key ∈ ks then ks.map (fun k => (k, if k = key then f k ++ [cc] else f k))
      else ks.map (fun k => (k, f k)) ++ [(key, [cc])] := by
  induction ks with
  | nil => simp [pushGroup]
  | cons k ks ih =>
    have hnd' := (List.nodup_cons.mp hnd).2
    have hknot := (List.nodup_cons.mp hnd).1
    by_cases hk : k = key
    · subst hk
      simp only [List.map_cons, pushGroup, if_pos rfl, List.mem_cons, true_or, if_pos]
      congr 1
      apply List.map_congr_left
      intro a ha
      have : a ≠ k := fun h => hknot (h ▸ ha)
      simp [this]
    · have hk' : ¬ key = k := fun h => hk h.symm
      simp only [List.map_cons, pushGroup, if_neg hk, ih hnd', List.mem_cons]
      by_cases hmem : key ∈ ks <;> simp [hk, hk', hmem]

/-- Full characterization of `groupByOperation`: the map's keys are the
operation strings in first-seen order, and the group of key `k` is exactly
the input-order sublist of entries whose operation is `k`. -/
theorem groupByOperation_eq (changes : List SandboxChangeEntry) :
    groupByOperation changes =
      (firstSeenOps changes).map
        (fun k => (k, changes.filter (fun c => c.operation == k))) := by
  induction changes using List.reverseRecOn with
  | nil => simp [groupByOperation, firstSeenOps]
  | append_singleton l c ih =>
    have hfold : groupByOperation (l ++ [c]) =
        pushGroup (groupByOperation l) c.operation c := by
      simp [groupByOperation, List.foldl_append]
    rw [hfold, ih, pushGroup_map_fun _ (firstSeenOps_nodup l), firstSeenOps_append]
    by_cases h : c.operation ∈ firstSeenOps l
    · rw [if_pos h, if_pos h]
      apply List.map_congr_left
      intro k _
      by_cases hk : k = c.operation
      · subst hk
        simp [List.filter_append]
      · have hk' : (c.operation == k) = false := by
          simp [beq_eq_false_iff_ne]
          exact fun hh => hk hh.symm
        simp [List.filter_append, hk, hk']
    · rw [if_neg h, if_neg h, List.map_append]
      congr 1
      · apply List.map_congr_left
        intro k hkmem
        have hk : k ≠ c.operation := by
          intro hh; subst hh; exact h hkmem
        have hk' : (c.operation == k) = false := by
          simp [beq_eq_false_iff_ne]
          exact fun hh => hk hh.symm
        simp [List.filter_append, hk']
      · have hnil : l.filter (fun d => d.operation == c.operation) = [] := by
          rw [List.filter_eq_nil_iff]
          intro d hd hbeq
          exact h ((mem_firstSeenOps l c.operation).mpr ⟨d, hd, by simpa using hbeq⟩)
        simp [List.filter_append, hnil]

theorem join_group_filters_perm (ks : List String) (l : List SandboxChangeEntry)
    (hnd : ks.Nodup) (hmem : ∀ c ∈ l, c.operation ∈ ks) :
    ((ks.map (fun k => l.filter (fun c => c.operation == k))).flatten).Perm l := by
  induction ks generalizing l with
  | nil =>
    have : l = [] := by
      cases l with
      | nil => rfl
      | cons c cs => exact absurd (hmem c (by simp)) (by simp)
    simp [this]
  | cons k ks ih =>
    simp only [List.map_cons, List.flatten_cons]
    have hnd' := (List.nodup_cons.mp hnd).2
    have hknot := (List.nodup_cons.mp hnd).1
    have hrw : ks.map (fun k' => l.filter (fun c => c.operation == k')) =
        ks.map (fun k' => (l.filter (fun c => !(c.operation == k))).filter
          (fun c => c.operation == k')) := by
      apply List.map_congr_left
      intro k' hk'
      rw [List.filter_filter]
      apply List.filter_congr
      intro c _
      have hne : ¬ k' = k := fun h => hknot (h ▸ hk')
      by_cases hc : c.operation = k' <;> simp [hc, hne]
    rw [hrw]
    have hmem' : ∀ c ∈ l.filter (fun c => !(c.operation == k)), c.operation ∈ ks := by
      intro c hc
      rw [List.mem_filter] at hc
      have := hmem c hc.1
      rcases List.mem_cons.mp this with h' | h'
      · exfalso; simp [h'] at hc
      · exact h'
    have hperm := ih (l.filter (fun c => !(c.operation == k))) hnd' hmem'
    refine List.Perm.trans ?_ (List.filter_append_perm (fun c => c.operation == k) l)
    exact hperm.append_left _

/-- C3: `groupByOperation` produces a map in which every entry stored under
a key has that operation, no entry is dropped or duplicated (the
concatenation of all groups is a permutation of the input), entries within
each group keep their input order (each group is the input-order filter of
the input by its key), keys appear in first-seen order of operation
strings, and every operation string — recognized or not — gets a group. -/
theorem groupByOperation_spec (changes : List SandboxChangeEntry) :
    (∀ k l, (k, l) ∈ groupByOperation changes → ∀ c ∈ l, c.operation = k)
    ∧ ((groupByOperation changes).map Prod.snd).flatten.Perm changes
    ∧ (∀ k l, (k, l) ∈ groupByOperation changes →
        l = changes.filter (fun c => c.operation == k))
    ∧ (groupByOperation changes).map Prod.fst = firstSeenOps changes
    ∧ (∀ c ∈ changes, c.operation ∈ (groupByOperation changes).map Prod.fst) := by
  have hchar := groupByOperation_eq changes
  refine ⟨?_, ?_, ?_, ?_, ?_⟩
  · intro k l hkl c hc
    rw [hchar] at hkl
    rcases List.mem_map.mp hkl with ⟨k', _, hk'⟩
    have hk1 : k' = k := congrArg Prod.fst hk'
    have hk2 : changes.filter (fun c => c.operation == k') = l := congrArg Prod.snd hk'
    subst hk1
    rw [← hk2] at hc
    simpa using (List.mem_filter.mp hc).2
  · rw [hchar, List.map_map]
    have : (Prod.snd ∘ fun k => (k, changes.filter (fun c => c.operation == k))) =
        fun k => changes.filter (fun c => c.operation == k) := rfl
    rw [this]
    exact join_group_filters_perm _ _ (firstSeenOps_nodup changes)
      (fun c hc => (mem_firstSeenOps changes c.operation).mpr ⟨c, hc, rfl⟩)
  · intro k l hkl
    rw [hchar] at hkl
    rcases List.mem_map.mp hkl with ⟨k', _, hk'⟩
    have hk1 : k' = k := congrArg Prod.fst hk'
    have hk2 : changes.filter (fun c => c.operation == k') = l := congrArg Prod.snd hk'
    subst hk1
    exact hk2.symm
  · rw [hchar, List.map_map]
    have : (Prod.fst ∘ fun k => (k, changes.filter (fun c => c.operation == k))) =
        fun k : String => k := rfl
    rw [this]
    simp
  · intro c hc
    rw [hchar, List.map_map]
    have : (Prod.fst ∘ fun k => (k, changes.filter (fun c => c.operation == k))) =
        fun k : String => k := rfl
    rw [this]
    simpa using (mem_firstSeenOps changes c.operation).mpr ⟨c, hc, rfl⟩

/-- C8: each mutating wrapper (`runAccept`, `runReject`, `runSync`,
`runStop`, `runDelete`) throws exactly when the exit code is non-zero,
with message `stderr` when non-empty and `stdout` otherwise, and succeeds
on a zero exit code regardless of output content. -/
theorem run_commands_exit_code_spec (res : ExecResult) :
    ((∃ m, runAccept res = .error m) ↔ res.code ≠ 0)
    ∧ (∀ m, runAccept res = .error m →
        m = if res.stderr.isEmpty then res.stdout else res.stderr)
    ∧ (res.code = 0 → runAccept res = .ok ())
    ∧ runReject res = runAccept res
    ∧ runSync res = runAccept res
    ∧ runStop res = runAccept res
    ∧ runDelete res = runAccept res := by
  refine ⟨⟨?_, ?_⟩, ?_, ?_, rfl, rfl, rfl, rfl⟩
  · rintro ⟨m, hm⟩
    by_cases h : res.code = 0
    · rw [runAccept, if_neg (by simpa using h)] at hm
      exact absurd hm (by simp)
    · exact h
  · intro h
    exact ⟨jsOrString res.stderr res.stdout, by rw [runAccept, if_pos h]⟩
  · intro m hm
    by_cases h : res.code = 0
    · rw [runAccept, if_neg (by simpa using h)] at hm
      exact absurd hm (by simp)
    · rw [runAccept, if_pos h] at hm
      have := Except.error.inj hm
      rw [← this, jsOrString]
  · intro h
    rw [runAccept, if_neg (by simpa using h)]

/-- Witness for `run_commands_exit_code_spec` at a concrete process
result: a zero exit code with non-empty output succeeds. -/
theorem run_commands_exit_code_spec_witness :
    runAccept { stdout := "out", stderr := "err", code := 0 } = .ok () :=
  (run_commands_exit_code_spec { stdout := "out", stderr := "err", code := 0 }).2.2.1 rfl

/-- C9: a `null` close code (signal termination) is replaced by `0` by
`execFile`, so every exit-code-checked wrapper treats signal termination
as success, and `spawnDiffStream` reports exit code `0` to its close
handler. -/
theorem null_close_code_success (out err : String) :
    runAccept (execFileResult out err none) = .ok ()
    ∧ runReject (execFileResult out err none) = .ok ()
    ∧ runSync (execFileResult out err none) = .ok ()
    ∧ runStop (execFileResult out err none) = .ok ()
    ∧ runDelete (execFileResult out err none) = .ok ()
    ∧ runDiff (execFileResult out err none) = .ok out
    ∧ spawnDiffStreamCloseCode none = 0 := by
  refine ⟨rfl, rfl, rfl, rfl, rfl, rfl, rfl⟩

theorem jsGetField_ok_of_ne_null (j : Json) (h : j ≠ .null) (k : String) :
    ∃ o, jsGetField j k = .ok o := by
  cases j with
  | null => exact absurd rfl h
  | bool b => exact ⟨none, rfl⟩
  | num s => exact ⟨none, rfl⟩
  | str s => exact ⟨none, rfl⟩
  | arr l => exact ⟨none, rfl⟩
  | obj fields => exact ⟨_, rfl⟩

theorem fetchStatus_error_iff (parse : String → Option Json) (res : ExecResult) :
    (∃ m, fetchStatus parse res = .error m) ↔
      (parse res.stdout = none ∨ parse res.stdout = some .null) := by
  cases hp : parse res.stdout with
  | none => simp [fetchStatus, hp]
  | some j =>
    cases j with
    | null => simp [fetchStatus, hp, jsGetField]
    | bool b => simp [fetchStatus, hp, jsGetField]
    | num s => simp [fetchStatus, hp, jsGetField]
    | str s => simp [fetchStatus, hp, jsGetField]
    | arr l => simp [fetchStatus, hp, jsGetField]
    | obj fields =>
      cases hl : (fields.reverse).lookup "changes" with
      | none => simp [fetchStatus, hp, jsGetField, hl]
      | some v => cases v <;> simp [fetchStatus, hp, jsGetField, hl]

theorem fetchStatus_error_msg (parse : String → Option Json) (res : ExecResult)
    (m : String) (hm : fetchStatus parse res = .error m) :
    m = "Failed to parse sandbox status JSON: " ++ jsOrString res.stderr res.stdout := by
  cases hp : parse res.stdout with
  | none =>
    simp only [fetchStatus, hp] at hm
    exact (Except.error.inj hm).symm
  | some j =>
    cases j with
    | null =>
      simp only [fetchStatus, hp, jsGetField] at hm
      exact (Except.error.inj hm).symm
    | bool b => simp [fetchStatus, hp, jsGetField] at hm
    | num s => simp [fetchStatus, hp, jsGetField] at hm
    | str s => simp [fetchStatus, hp, jsGetField] at hm
    | arr l => simp [fetchStatus, hp, jsGetField] at hm
    | obj fields =>
      cases hl : (fields.reverse).lookup "changes" with
      | none => simp [fetchStatus, hp, jsGetField, hl] at hm
      | some v => cases v <;> simp [fetchStatus, hp, jsGetField, hl] at hm

theorem fetchConfig_error_iff (parse : String → Option Json) (res : ExecResult) :
    (∃ m, fetchConfig parse res = .error m) ↔
      (parse res.stdout = none ∨ parse res.stdout = some .null) := by
  cases hp : parse res.stdout with
  | none => simp [fetchConfig, hp]
  | some j =>
    cases j with
    | null => simp [fetchConfig, hp, jsGetField]
    | bool b => simp [fetchConfig, hp, jsGetField]
    | num s => simp [fetchConfig, hp, jsGetField]
    | str s => simp [fetchConfig, hp, jsGetField]
    | arr l => simp [fetchConfig, hp, jsGetField]
    | obj fields => simp [fetchConfig, hp, jsGetField]

theorem fetchConfig_error_msg (parse : String → Option Json) (res : ExecResult)
    (m : String) (hm : fetchConfig parse res = .error m) :
    m = "Failed to parse sandbox config JSON: " ++ jsOrString res.stderr res.stdout := by
  cases hp : parse res.stdout with
  | none =>
    simp only [fetchConfig, hp] at hm
    exact (Except.error.inj hm).symm
  | some j =>
    cases j with
    | null =>
      simp only [fetchConfig, hp, jsGetField] at hm
      exact (Except.error.inj hm).symm
    | bool b => simp [fetchConfig, hp, jsGetField] at hm
    | num s => simp [fetchConfig, hp, jsGetField] at hm
    | str s => simp [fetchConfig, hp, jsGetField] at hm
    | arr l => simp [fetchConfig, hp, jsGetField] at hm
    | obj fields => simp [fetchConfig, hp, jsGetField] at hm

/-- C7 (amended): `fetchStatus`/`fetchConfig` throw exactly when stdout
fails to parse as JSON, or parses to the JSON value `null` (property
access on `null` raises a `TypeError` inside the same `try` block); the
message carries stderr, falling back to stdout; the exit code is never
consulted; and `fetchStatus` returns the empty array whenever the parsed
value's `changes` property is absent or `null`. -/
theorem fetch_parse_amended_spec (parse : String → Option Json) (res : ExecResult) :
    ((∃ m, fetchStatus parse res = .error m) ↔
      (parse res.stdout = none ∨ parse res.stdout = some .null))
    ∧ (∀ m, fetchStatus parse res = .error m →
        m = "Failed to parse sandbox status JSON: " ++ jsOrString res.stderr res.stdout)
    ∧ (∀ k : Int, fetchStatus parse { res with code := k } = fetchStatus parse res)
    ∧ (∀ j, parse res.stdout = some j → jsGetField j "changes" = .ok none →
        fetchStatus parse res = .ok (Json.arr []))
    ∧ (∀ j, parse res.stdout = some j → jsGetField j "changes" = .ok (some .null) →
        fetchStatus parse res = .ok (Json.arr []))
    ∧ ((∃ m, fetchConfig parse res = .error m) ↔
      (parse res.stdout = none ∨ parse res.stdout = some .null))
    ∧ (∀ m, fetchConfig parse res = .error m →
        m = "Failed to parse sandbox config JSON: " ++ jsOrString res.stderr res.stdout)
    ∧ (∀ k : Int, fetchConfig parse { res with code := k } = fetchConfig parse res) := by
  refine ⟨fetchStatus_error_iff parse res, fetchStatus_error_msg parse res, ?_, ?_, ?_,
    fetchConfig_error_iff parse res, fetchConfig_error_msg parse res, ?_⟩
  · intro k
    rfl
  · intro j hj hch
    simp [fetchStatus, hj, hch]
  · intro j hj hch
    simp [fetchStatus, hj, hch]
  · intro k
    rfl

/-- Witness for `fetch_parse_amended_spec`: with stdout `5` (valid JSON
with no `changes` property) the status fetch succeeds with the empty
array. -/
theorem fetch_parse_amended_spec_witness :
    fetchStatus jsonParse { stdout := "5", stderr := "", code := 0 } = .ok (Json.arr []) :=
  (fetch_parse_amended_spec jsonParse { stdout := "5", stderr := "", code := 0 }).2.2.2.1
    (Json.num "5") rfl rfl

/-- C7 counterexample: stdout `null` is valid JSON (our JSON parser
accepts it, as `JSON.parse` does), yet both fetchers throw the
parse-failure error, so "throws iff stdout is not valid JSON" is false. -/
theorem fetch_parse_claim_counterexample :
    jsonParse "null" = some Json.null
    ∧ fetchStatus jsonParse { stdout := "null", stderr := "", code := 0 } =
        .error "Failed to parse sandbox status JSON: null"
    ∧ fetchConfig jsonParse { stdout := "null", stderr := "", code := 0 } =
        .error "Failed to parse sandbox config JSON: null" := by
  refine ⟨rfl, rfl, rfl⟩

theorem mem_leafPathsF_setF : ∀ (m : DirForest) (k : String) (v : DirTree)
    (pr : List String × SandboxChangeEntry),
    pr ∈ leafPathsF (setF m k v) → pr ∈ leafPathsF m ∨ pr ∈ leafPathsT k v
  | .nil, k, v, pr, h => by
    simp only [setF, leafPathsF, List.append_nil] at h
    exact .inr h
  | .cons k' t rest, k, v, pr, h => by
    by_cases hk : k' = k
    · subst hk
      simp only [setF, if_pos rfl, leafPathsF] at h
      rcases List.mem_append.mp h with h' | h'
      · exact .inr h'
      · exact .inl (by simp only [leafPathsF]; exact List.mem_append.mpr (.inr h'))
    · simp only [setF, if_neg hk, leafPathsF] at h
      rcases List.mem_append.mp h with h' | h'
      · exact .inl (by simp only [leafPathsF]; exact List.mem_append.mpr (.inl h'))
      · rcases mem_leafPathsF_setF rest k v pr h' with h'' | h''
        · exact .inl (by simp only [leafPathsF]; exact List.mem_append.mpr (.inr h''))
        · exact .inr h''

theorem mem_leafPathsF_of_lookup_node : ∀ (m : DirForest) (p : String) (l : DirForest),
    lookupF m p = some (.node l) → ∀ (q : List String) (d : SandboxChangeEntry),
    (q, d) ∈ leafPathsF l → (p :: q, d) ∈ leafPathsF m
  | .nil, p, l, hl, q, d, h => absurd hl (by simp [lookupF])
  | .cons k t rest, p, l, hl, q, d, h => by
    by_cases hk : k = p
    · subst hk
      rw [lookupF, if_pos rfl] at hl
      have ht : t = .node l := Option.some.inj hl
      subst ht
      simp only [leafPathsF, leafPathsT]
      exact List.mem_append.mpr (.inl (List.mem_map.mpr ⟨(q, d), h, rfl⟩))
    · rw [lookupF, if_neg hk] at hl
      simp only [leafPathsF]
      exact List.mem_append.mpr (.inr (mem_leafPathsF_of_lookup_node rest p l hl q d h))

theorem mem_insertParts_leaves (ps : List String) (m : DirForest)
    (c : SandboxChangeEntry) (pr : List String × SandboxChangeEntry)
    (hne : ps ≠ []) (h : pr ∈ leafPathsF (insertParts m ps c)) :
    pr ∈ leafPathsF m ∨ (pr.1 = ps ∧ pr.2 = c) := by
  induction ps generalizing m pr with
  | nil => exact absurd rfl hne
  | cons p rest ih =>
    cases rest with
    | nil =>
      simp only [insertParts] at h
      rcases mem_leafPathsF_setF m p (.leaf c) pr h with h' | h'
      · exact .inl h'
      · simp only [leafPathsT, List.mem_singleton] at h'
        subst h'
        exact .inr ⟨rfl, rfl⟩
    | cons r rest' =>
      have step : ∀ sub : DirForest,
          pr ∈ leafPathsF (setF m p (.node (insertParts sub (r :: rest') c))) →
          (∀ q d, (q, d) ∈ leafPathsF sub → (p :: q, d) ∈ leafPathsF m) →
          pr ∈ leafPathsF m ∨ (pr.1 = p :: r :: rest' ∧ pr.2 = c) := by
        intro sub hmem hsub
        rcases mem_leafPathsF_setF _ _ _ pr hmem with h' | h'
        · exact .inl h'
        · simp only [leafPathsT, List.mem_map] at h'
          rcases h' with ⟨⟨q, d⟩, hq, hpr⟩
          rcases ih _ (q, d) (by simp) hq with hq' | hq'
          · left
            rw [← hpr]
            exact hsub q d hq'
          · right
            rw [← hpr]
            simp only at hq'
            exact ⟨by rw [hq'.1], hq'.2⟩
      rcases hlk : lookupF m p with _ | t
      · simp only [insertParts, hlk] at h
        exact step .nil h (by simp [leafPathsF])
      · cases t with
        | leaf e =>
          simp only [insertParts, hlk] at h
          exact step .nil h (by simp [leafPathsF])
        | node l =>
          simp only [insertParts, hlk] at h
          exact step l h (fun q d hq => mem_leafPathsF_of_lookup_node m p l hlk q d hq)

theorem build_hierarchy_leaves_aux (cwd : Option String)
    (l : List SandboxChangeEntry) (acc : DirForest)
    (pr : List String × SandboxChangeEntry)
    (h : pr ∈ leafPathsF
      (l.foldl (fun root c => insertParts root (pathParts cwd c.destination) c) acc)) :
    pr ∈ leafPathsF acc ∨ (pr.2 ∈ l ∧ pr.1 = pathParts cwd pr.2.destination) := by
  induction l generalizing acc with
  | nil => exact .inl h
  | cons c rest ih =>
    rw [List.foldl_cons] at h
    rcases ih _ h with h' | h'
    · rcases hp : pathParts cwd c.destination with _ | ⟨p, ps⟩
      · rw [hp] at h'
        simp only [insertParts] at h'
        exact .inl h'
      · rw [hp] at h'
        rcases mem_insertParts_leaves _ _ _ _ (by simp) h' with h'' | h''
        · exact .inl h''
        · right
          refine ⟨by simp [h''.2], ?_⟩
          rw [h''.2, hp]
          exact h''.1
    · exact .inr ⟨by simp [h'.1], h'.2⟩

/-- C1 (amended): every leaf of the hierarchy built by
`buildDirectoryHierarchy` holds exactly one input entry, and the root-to-
leaf segment path is exactly the non-empty `/`-separated segments of the
entry's destination after cwd-prefix stripping — so joining the segments
with `/` yields the stripped destination with empty segments (leading,
doubled and trailing slashes) removed, not always the stripped destination
itself. -/
theorem hierarchy_leaf_paths (changes : List SandboxChangeEntry) (cwd : Option String)
    (pr : List String × SandboxChangeEntry)
    (hpr : pr ∈ leafPathsF (buildDirectoryHierarchy changes cwd)) :
    pr.2 ∈ changes
    ∧ pr.1 = pathParts cwd pr.2.destination
    ∧ joinSegs pr.1 = joinSegs (pathParts cwd pr.2.destination) := by
  rcases build_hierarchy_leaves_aux cwd changes .nil pr hpr with h | h
  · exact absurd h (by simp [leafPathsF])
  · exact ⟨h.1, h.2, by rw [h.2]⟩

/-- Witness for `hierarchy_leaf_paths` at a concrete change list. -/
theorem hierarchy_leaf_paths_witness :
    ((["a", "b.txt"], ({ destination := "/w/a/b.txt", operation := "create" } : SandboxChangeEntry)) ∈
      leafPathsF (buildDirectoryHierarchy
        [{ destination := "/w/a/b.txt", operation := "create" }] (some "/w")))
    ∧ (({ destination := "/w/a/b.txt", operation := "create" } : SandboxChangeEntry) ∈
        [({ destination := "/w/a/b.txt", operation := "create" } : SandboxChangeEntry)]
      ∧ ["a", "b.txt"] = pathParts (some "/w") "/w/a/b.txt"
      ∧ joinSegs ["a", "b.txt"] = joinSegs (pathParts (some "/w") "/w/a/b.txt")) :=
  ⟨by decide,
    hierarchy_leaf_paths
      [{ destination := "/w/a/b.txt", operation := "create" }] (some "/w")
      (["a", "b.txt"], { destination := "/w/a/b.txt", operation := "create" })
      (by decide)⟩

/-- C1 counterexample: with cwd `/w` and a single change at the absolute
destination `/a.txt` (which does not start with `/w/`), the single leaf's
root-to-leaf path joins to `a.txt`, but the claim demands the unmodified
destination `/a.txt` — the split-and-filter drops the leading empty
segment. -/
theorem hierarchy_leaf_paths_claim_counterexample :
    leafPathsF (buildDirectoryHierarchy
        [{ destination := "/a.txt", operation := "modify" }] (some "/w"))
      = [(["a.txt"], { destination := "/a.txt", operation := "modify" })]
    ∧ joinSegs ["a.txt"] = "a.txt"
    ∧ stripCwdSpec "/w" "/a.txt" = "/a.txt"
    ∧ ("a.txt" : String) ≠ "/a.txt" := by
  refine ⟨rfl, rfl, rfl, by decide⟩

theorem mem_namesF_setF : ∀ (m : DirForest) (k : String) (v : DirTree) (x : String),
    x ∈ namesF (setF m k v) → x ∈ namesF m ∨ x = k ∨ x ∈ namesT v
  | .nil, k, v, x, h => by
    simp only [setF, namesF, namesT, List.append_nil] at h
    rcases List.mem_cons.mp h with h' | h'
    · exact .inr (.inl h')
    · exact .inr (.inr (by simpa using h'))
  | .cons k' t rest, k, v, x, h => by
    by_cases hk : k' = k
    · subst hk
      simp only [setF, if_pos rfl, namesF] at h
      rcases List.mem_cons.mp h with h' | h'
      · exact .inr (.inl h')
      · rcases List.mem_append.mp h' with h'' | h''
        · exact .inr (.inr h'')
        · exact .inl (by simp only [namesF]; simp [h''])
    · simp only [setF, if_neg hk, namesF] at h
      rcases List.mem_cons.mp h with h' | h'
      · exact .inl (by simp only [namesF]; simp [h'])
      · rcases List.mem_append.mp h' with h'' | h''
        · exact .inl (by simp only [namesF]; simp [h''])
        · rcases mem_namesF_setF rest k v x h'' with h3 | h3 | h3
          · exact .inl (by simp only [namesF]; simp [h3])
          · exact .inr (.inl h3)
          · exact .inr (.inr h3)

theorem mem_namesF_of_lookup_node : ∀ (m : DirForest) (p : String) (l : DirForest),
    lookupF m p = some (.node l) → ∀ x ∈ namesF l, x ∈ namesF m
  | .nil, p, l, hl, x, h => absurd hl (by simp [lookupF])
  | .cons k t rest, p, l, hl, x, h => by
    by_cases hk : k = p
    · subst hk
      rw [lookupF, if_pos rfl] at hl
      have ht : t = .node l := Option.some.inj hl
      subst ht
      simp only [namesF, namesT]
      simp [h]
    · rw [lookupF, if_neg hk] at hl
      simp only [namesF]
      simp [mem_namesF_of_lookup_node rest p l hl x h]

theorem mem_insertParts_names (ps : List String) (m : DirForest)
    (c : SandboxChangeEntry) (x : String) (h : x ∈ namesF (insertParts m ps c)) :
    x ∈ namesF m ∨ x ∈ ps := by
  induction ps generalizing m with
  | nil => exact .inl (by simpa [insertParts] using h)
  | cons p rest ih =>
    cases rest with
    | nil =>
      simp only [insertParts] at h
      rcases mem_namesF_setF m p (.leaf c) x h with h' | h' | h'
      · exact .inl h'
      · exact .inr (by simp [h'])
      · exact absurd h' (by simp [namesT])
    | cons r rest' =>
      have step : ∀ sub : DirForest,
          x ∈ namesF (setF m p (.node (insertParts sub (r :: rest') c))) →
          (∀ y ∈ namesF sub, y ∈ namesF m) →
          x ∈ namesF m ∨ x ∈ p :: r :: rest' := by
        intro sub hmem hsub
        rcases mem_namesF_setF _ _ _ x hmem with h' | h' | h'
        · exact .inl h'
        · exact .inr (by simp [h'])
        · simp only [namesT] at h'
          rcases ih _ h' with h'' | h''
          · exact .inl (hsub x h'')
          · exact .inr (by simp [h''])
      rcases hlk : lookupF m p with _ | t
      · simp only [insertParts, hlk] at h
        exact step .nil h (by simp [namesF])
      · cases t with
        | leaf e =>
          simp only [insertParts, hlk] at h
          exact step .nil h (by simp [namesF])
        | node l =>
          simp only [insertParts, hlk] at h
          exact step l h (fun y hy => mem_namesF_of_lookup_node m p l hlk y hy)

theorem build_hierarchy_names_aux (cwd : Option String)
    (l : List SandboxChangeEntry) (acc : DirForest) (x : String)
    (h : x ∈ namesF
      (l.foldl (fun root c => insertParts root (pathParts cwd c.destination) c) acc)) :
    x ∈ namesF acc ∨ ∃ c ∈ l, x ∈ pathParts cwd c.destination := by
  induction l generalizing acc with
  | nil => exact .inl h
  | cons c rest ih =>
    rw [List.foldl_cons] at h
    rcases ih _ h with h' | h'
    · rcases mem_insertParts_names _ _ _ _ h' with h'' | h''
      · exact .inl h''
      · exact .inr ⟨c, by simp, h''⟩
    · rcases h' with ⟨d, hd, hx⟩
      exact .inr ⟨d, by simp [hd], hx⟩

theorem mem_pathParts_ne_empty (cwd : Option String) (dest : String) (x : String)
    (h : x ∈ pathParts cwd dest) : x ≠ "" := by
  simp only [pathParts, List.mem_map, List.mem_filter] at h
  rcases h with ⟨seg, ⟨_, hne⟩, hx⟩
  intro hx0
  rw [hx0] at hx
  have : seg = [] := by
    have := congrArg String.toList hx
    simpa using this
  rw [this] at hne
  simp at hne

/-- C10: the hierarchy built by `buildDirectoryHierarchy` never contains a
node (interior or leaf) with an empty segment name, because empty segments
produced by splitting on `/` are filtered out. -/
theorem hierarchy_no_empty_names (changes : List SandboxChangeEntry)
    (cwd : Option String) (x : String)
    (h : x ∈ namesF (buildDirectoryHierarchy changes cwd)) : x ≠ "" := by
  rcases build_hierarchy_names_aux cwd changes .nil x h with h' | h'
  · exact absurd h' (by simp [namesF])
  · rcases h' with ⟨c, _, hx⟩
    exact mem_pathParts_ne_empty cwd c.destination x hx

/-- Witness for `hierarchy_no_empty_names`: an absolute destination with a
doubled slash still yields only non-empty node names. -/
theorem hierarchy_no_empty_names_witness :
    ("w" ∈ namesF (buildDirectoryHierarchy
        [{ destination := "/w//a.txt", operation := "modify" }] none))
    ∧ ("w" : String) ≠ "" :=
  ⟨by decide,
    hierarchy_no_empty_names
      [{ destination := "/w//a.txt", operation := "modify" }] none "w" (by decide)⟩

theorem lookupF_setF : ∀ (m : DirForest) (k : String) (v : DirTree),
    lookupF (setF m k v) k = some v
  | .nil, k, v => by simp [setF, lookupF]
  | .cons k' t rest, k, v => by
    by_cases hk : k' = k
    · subst hk
      simp [setF, lookupF]
    · simp only [setF, if_neg hk, lookupF]
      exact lookupF_setF rest k v

/-- C5: in `buildDirectoryHierarchy`'s insertion, later writes win at a
segment needed both as a leaf and as an interior node: a later leaf
insertion replaces an existing interior subtree at that segment, and a
later interior requirement replaces an existing leaf with a fresh empty
interior map holding only the new entry's remaining segments — each time
silently discarding the previous contents, as the two concrete
`buildDirectoryHierarchy` runs show. -/
theorem hierarchy_collision_last_write_wins :
    (∀ (m : DirForest) (p : String) (l : DirForest) (c : SandboxChangeEntry),
      lookupF m p = some (.node l) →
      lookupF (insertParts m [p] c) p = some (.leaf c))
    ∧ (∀ (m : DirForest) (p : String) (rest : List String) (c c' : SandboxChangeEntry),
      rest ≠ [] → lookupF m p = some (.leaf c') →
      lookupF (insertParts m (p :: rest) c) p =
        some (.node (insertParts .nil rest c)))
    ∧ buildDirectoryHierarchy
        [{ destination := "a/b", operation := "create" },
         { destination := "a", operation := "create" }] none =
      .cons "a" (.leaf { destination := "a", operation := "create" }) .nil
    ∧ buildDirectoryHierarchy
        [{ destination := "a", operation := "create" },
         { destination := "a/b", operation := "create" }] none =
      .cons "a" (.node (.cons "b"
        (.leaf { destination := "a/b", operation := "create" }) .nil)) .nil := by
  refine ⟨?_, ?_, rfl, rfl⟩
  · intro m p l c _
    simp only [insertParts]
    exact lookupF_setF m p (.leaf c)
  · intro m p rest c c' hne hlk
    cases rest with
    | nil => exact absurd rfl hne
    | cons r rest' =>
      simp only [insertParts, hlk]
      exact lookupF_setF m p _

/-- Witness for `hierarchy_collision_last_write_wins` at concrete maps. -/
theorem hierarchy_collision_last_write_wins_witness :
    (lookupF (.cons "a" (.node .nil) .nil) "a" = some (.node .nil)
      ∧ lookupF (insertParts (.cons "a" (.node .nil) .nil) ["a"]
          { destination := "a", operation := "modify" }) "a" =
        some (.leaf { destination := "a", operation := "modify" }))
    ∧ (lookupF (.cons "a" (.leaf { destination := "a", operation := "modify" }) .nil) "a" =
        some (.leaf { destination := "a", operation := "modify" })
      ∧ lookupF (insertParts
          (.cons "a" (.leaf { destination := "a", operation := "modify" }) .nil)
          ["a", "b"] { destination := "a/b", operation := "create" }) "a" =
        some (.node (insertParts .nil ["b"] { destination := "a/b", operation := "create" }))) :=
  ⟨⟨rfl, hierarchy_collision_last_write_wins.1 _ "a" .nil
      { destination := "a", operation := "modify" } rfl⟩,
   ⟨rfl, hierarchy_collision_last_write_wins.2.1 _ "a" ["b"]
      { destination := "a/b", operation := "create" }
      { destination := "a", operation := "modify" } (by simp) rfl⟩⟩

theorem lookup_map_pair (ks : List String) (f : String → List SandboxChangeEntry)
    (key : String) :
    (ks.map (fun k => (k, f k))).lookup key =
      if key ∈ ks then some (f key) else none := by
  induction ks with
  | nil => simp
  | cons k ks ih =>
    by_cases hk : key = k
    · subst hk
      simp [List.lookup]
    · have hbeq : (key == k) = false := beq_eq_false_iff_ne.mpr hk
      simp [List.lookup, hbeq, ih, List.mem_cons, hk]

theorem groups_lookup (changes : List SandboxChangeEntry) (op : String) :
    (groupByOperation changes).lookup op =
      if op ∈ firstSeenOps changes
      then some (changes.filter (fun c => c.operation == op)) else none := by
  rw [groupByOperation_eq]
  exact lookup_map_pair _ _ _

theorem group_filter_ne_nil (changes : List SandboxChangeEntry) (op : String)
    (h : op ∈ firstSeenOps changes) :
    changes.filter (fun c => c.operation == op) ≠ [] := by
  rcases (mem_firstSeenOps changes op).mp h with ⟨c, hc, hco⟩
  intro hnil
  have hmem : c ∈ changes.filter (fun c => c.operation == op) :=
    List.mem_filter.mpr ⟨hc, by simp [hco]⟩
  rw [hnil] at hmem
  simp at hmem

theorem opGroups_first_part (changes : List SandboxChangeEntry) (ops : List String) :
    (ops.filterMap (fun op =>
      match (groupByOperation changes).lookup op with
      | some l => if l.length = 0 then none else some (op, l)
      | none => none)).map Prod.fst
    = ops.filter (fun op => decide (op ∈ firstSeenOps changes)) := by
  induction ops with
  | nil => simp
  | cons op ops ih =>
    by_cases h : op ∈ firstSeenOps changes
    · have hne := group_filter_ne_nil changes op h
      have hf : (match (groupByOperation changes).lookup op with
          | some l => if l.length = 0 then none else some (op, l)
          | none => none) =
          some (op, changes.filter (fun c => c.operation == op)) := by
        rw [groups_lookup, if_pos h]
        simp [hne]
      rw [List.filterMap_cons, hf, List.map_cons, ih, List.filter_cons]
      simp [h]
    · have hf : (match (groupByOperation changes).lookup op with
          | some l => if l.length = 0 then none else some (op, l)
          | none => none) = (none : Option (String × List SandboxChangeEntry)) := by
        rw [groups_lookup, if_neg h]
      rw [List.filterMap_cons, hf, ih, List.filter_cons]
      simp [h]

theorem map_fst_filter_fst {α β : Type} (l : List (α × β)) (p : α → Bool) :
    ((l.filter (fun kv => p kv.1)).map Prod.fst) = (l.map Prod.fst).filter p := by
  induction l with
  | nil => rfl
  | cons kv rest ih =>
    by_cases h : p kv.1 <;> simp [List.filter_cons, h, ih]

theorem groups_map_fst (changes : List SandboxChangeEntry) :
    (groupByOperation changes).map Prod.fst = firstSeenOps changes := by
  rw [groupByOperation_eq, List.map_map]
  have : (Prod.fst ∘ fun k => (k, changes.filter (fun c => c.operation == k))) =
      fun k : String => k := rfl
  rw [this]
  simp

theorem mem_insertOrdP {β : Type} (lcmp : String → String → Ordering)
    (l : List (String × β)) (x z : String × β) :
    z ∈ insertOrdP lcmp l x ↔ z = x ∨ z ∈ l := by
  induction l with
  | nil => simp [insertOrdP]
  | cons y ys ih =>
    by_cases h : lcmp x.1 y.1 = .lt
    · simp only [insertOrdP, if_pos h, List.mem_cons]
    · simp only [insertOrdP, if_neg h, List.mem_cons, ih]
      tauto

theorem insertOrdP_pairwise {β : Type} (lcmp : String → String → Ordering)
    (htrans : ∀ a b c, lcmp a b ≠ .gt → lcmp b c ≠ .gt → lcmp a c ≠ .gt)
    (hcons : ∀ a b, lcmp a b ≠ .lt → lcmp b a ≠ .gt)
    (l : List (String × β)) (x : String × β)
    (hl : l.Pairwise (fun a b => lcmp a.1 b.1 ≠ .gt)) :
    (insertOrdP lcmp l x).Pairwise (fun a b => lcmp a.1 b.1 ≠ .gt) := by
  induction l with
  | nil => simp [insertOrdP]
  | cons y ys ih =>
    rcases List.pairwise_cons.mp hl with ⟨hy, hys⟩
    by_cases h : lcmp x.1 y.1 = .lt
    · simp only [insertOrdP, if_pos h]
      refine List.pairwise_cons.mpr ⟨?_, hl⟩
      intro z hz
      rcases List.mem_cons.mp hz with rfl | hz'
      · simp [h]
      · exact htrans _ _ _ (by simp [h]) (hy z hz')
    · simp only [insertOrdP, if_neg h]
      refine List.pairwise_cons.mpr ⟨?_, ih hys⟩
      intro z hz
      rcases (mem_insertOrdP lcmp ys x z).mp hz with rfl | hz'
      · exact hcons _ _ h
      · exact hy z hz'

theorem sortPairs_pairwise {β : Type} (lcmp : String → String → Ordering)
    (htrans : ∀ a b c, lcmp a b ≠ .gt → lcmp b c ≠ .gt → lcmp a c ≠ .gt)
    (hcons : ∀ a b, lcmp a b ≠ .lt → lcmp b a ≠ .gt)
    (l : List (String × β)) :
    (sortPairs lcmp l).Pairwise (fun a b => lcmp a.1 b.1 ≠ .gt) := by
  suffices h : ∀ (l acc : List (String × β)),
      acc.Pairwise (fun a b => lcmp a.1 b.1 ≠ .gt) →
      (l.foldl (insertOrdP lcmp) acc).Pairwise (fun a b => lcmp a.1 b.1 ≠ .gt) by
    exact h l [] (by simp)
  intro l
  induction l with
  | nil => intro acc hacc; exact hacc
  | cons x xs ih =>
    intro acc hacc
    rw [List.foldl_cons]
    exact ih _ (insertOrdP_pairwise lcmp htrans hcons acc x hacc)

/-- C6: non-empty operation groups appear in the fixed order error,
remove, rename, modify, create, then the remaining operations in
first-seen order; empty groups are omitted (no group is ever empty); and
at every level of every rendered hierarchy the siblings appear in the
key-sorted order produced by the name comparator alone, leaves and
interior nodes alike. -/
theorem rendered_group_and_sibling_order (changes : List SandboxChangeEntry) :
    ((operationGroups changes).map Prod.fst =
        fixedOpOrder.filter (fun op => decide (op ∈ firstSeenOps changes))
        ++ (firstSeenOps changes).filter (fun op => !(fixedOpOrder.contains op)))
    ∧ (∀ kv ∈ operationGroups changes, kv.2 ≠ [])
    ∧ (∀ lcmp : String → String → Ordering,
        (∀ a b c, lcmp a b ≠ .gt → lcmp b c ≠ .gt → lcmp a c ≠ .gt) →
        (∀ a b, lcmp a b ≠ .lt → lcmp b a ≠ .gt) →
        ∀ f : DirForest,
          toNodes lcmp f = (sortPairs lcmp (renderF lcmp f)).map Prod.snd
          ∧ ((sortPairs lcmp (renderF lcmp f)).map Prod.fst).Pairwise
              (fun a b => lcmp a b ≠ .gt)) := by
  refine ⟨?_, ?_, ?_⟩
  · rw [operationGroups, List.map_append, opGroups_first_part,
      map_fst_filter_fst (groupByOperation changes)
        (fun op => !fixedOpOrder.contains op),
      groups_map_fst]
  · intro kv hkv
    rcases List.mem_append.mp hkv with h | h
    · rcases List.mem_filterMap.mp h with ⟨op, _, heq⟩
      rw [groups_lookup] at heq
      by_cases hmem : op ∈ firstSeenOps changes
      · rw [if_pos hmem] at heq
        have hne := group_filter_ne_nil changes op hmem
        simp only [hne, if_false, List.length_eq_zero] at heq
        have hkv' := Option.some.inj heq
        rw [← hkv']
        exact hne
      · rw [if_neg hmem] at heq
        exact absurd heq (by simp)
    · have hmem := (List.mem_filter.mp h).1
      rw [groupByOperation_eq] at hmem
      rcases List.mem_map.mp hmem with ⟨k, hk, heq⟩
      have h2 : changes.filter (fun c => c.operation == k) = kv.2 :=
        congrArg Prod.snd heq
      rw [← h2]
      exact group_filter_ne_nil changes k hk
  · intro lcmp htrans hcons f
    refine ⟨rfl, ?_⟩
    rw [List.pairwise_map]
    exact sortPairs_pairwise lcmp htrans hcons _

/-- Witness for `rendered_group_and_sibling_order`: the code-point
comparator on strings satisfies the comparator laws, and a concrete
two-entry level (a leaf named `b` and an interior node named `a`) renders
with its names in sorted order. -/
theorem rendered_group_and_sibling_order_witness :
    toNodes (fun a b => if a < b then .lt else if b < a then .gt else .eq)
        (.cons "b" (.leaf { destination := "b", operation := "modify" })
          (.cons "a" (.node .nil) .nil)) =
      (sortPairs (fun a b => if a < b then .lt else if b < a then .gt else .eq)
        (renderF (fun a b => if a < b then .lt else if b < a then .gt else .eq)
          (.cons "b" (.leaf { destination := "b", operation := "modify" })
            (.cons "a" (.node .nil) .nil)))).map Prod.snd
    ∧ ((sortPairs (fun a b => if a < b then .lt else if b < a then .gt else .eq)
        (renderF (fun a b => if a < b then .lt else if b < a then .gt else .eq)
          (.cons "b" (.leaf { destination := "b", operation := "modify" })
            (.cons "a" (.node .nil) .nil)))).map Prod.fst).Pairwise
        (fun a b => (if a < b then Ordering.lt else if b < a then .gt else .eq) ≠ .gt) := by
  have hiff : ∀ x y : String,
      ((if x < y then Ordering.lt else if y < x then .gt else .eq) ≠ .gt) ↔ x ≤ y := by
    intro x y
    by_cases h1 : x < y
    · simp [h1, le_of_lt h1]
    · by_cases h2 : y < x
      · simp [h1, h2, not_le.mpr h2]
      · simp [h1, h2, le_of_not_lt h2]
  have hlt : ∀ x y : String,
      ((if x < y then Ordering.lt else if y < x then .gt else .eq) ≠ .lt) → ¬ x < y := by
    intro x y h hxy
    rw [if_pos hxy] at h
    exact h rfl
  exact (rendered_group_and_sibling_order []).2.2
    (fun a b => if a < b then .lt else if b < a then .gt else .eq)
    (fun a b c hab hbc =>
      (hiff a c).mpr (le_trans ((hiff a b).mp hab) ((hiff b c).mp hbc)))
    (fun a b hab => (hiff b a).mpr (le_of_not_lt (hlt a b hab)))
    (.cons "b" (.leaf { destination := "b", operation := "modify" })
      (.cons "a" (.node .nil) .nil))

/-- C2: for every filesystem state and every change entry, the diff
resolver picks the two sides exactly per the spec's operation table
(create: empty vs staged/overlay copy; remove: destination-else-source-
else-empty vs empty; rename: source-else-destination-else-empty vs
staged/overlay copy; modify and any other operation:
destination-else-source-else-empty vs staged/overlay copy), where the
staged/overlay copy resolves staged, then tmp_path, then the destination
itself. -/
theorem openDiffForChange_matches_spec_table :
    (∀ (fs : String → Bool) (c : SandboxChangeEntry),
      openDiffForChange fs c = diffSidesSpec fs c)
    ∧ (∀ fs : String → Bool,
      openDiffForChange fs
          { destination := "/w/f", operation := "create", staged := some "/tmp/s" } =
        (FileRef.emptyTemp, FileRef.real "/tmp/s"))
    ∧ openDiffForChange (fun p => p == "/w/src")
          { destination := "/w/f", operation := "remove", source := some "/w/src" } =
        (FileRef.real "/w/src", FileRef.emptyTemp) :=
  ⟨fun _ _ => rfl, fun _ => rfl, rfl⟩

theorem star_not_special : ('*' : Char) ∉ regexEscapeSet := by decide

theorem rds_dstar (t : List Char) :
    replaceDoubleStar ('*' :: '*' :: t) = sentinelChars ++ replaceDoubleStar t := by
  simp [replaceDoubleStar]

theorem rds_cons (c : Char) (t : List Char) (h : c ≠ '*') :
    replaceDoubleStar (c :: t) = c :: replaceDoubleStar t := by
  cases t with
  | nil => rfl
  | cons d t' => simp [replaceDoubleStar, h]

theorem rds_star_cons_ne (d : Char) (t : List Char) (hd : d ≠ '*') :
    replaceDoubleStar ('*' :: d :: t) = '*' :: replaceDoubleStar (d :: t) := by
  simp [replaceDoubleStar, hd]

theorem se_append (a b : List Char) :
    starExpand (a ++ b) = starExpand a ++ starExpand b := by
  induction a with
  | nil => simp [starExpand]
  | cons c r ih => simp [starExpand, ih]

theorem se_sentinel : starExpand sentinelChars = sentinelChars := rfl

theorem isPrefixOf_append_self (a b : List Char) : a.isPrefixOf (a ++ b) = true := by
  induction a with
  | nil => simp [List.isPrefixOf]
  | cons c r ih => simp [List.isPrefixOf, ih]

theorem rsFuel_irrel (fuel₁ : Nat) :
    ∀ (fuel₂ : Nat) (s : List Char), s.length ≤ fuel₁ → s.length ≤ fuel₂ →
    rsFuel fuel₁ s = rsFuel fuel₂ s := by
  induction fuel₁ with
  | zero =>
    intro fuel₂ s h1 _
    have : s = [] := List.length_eq_zero.mp (Nat.le_zero.mp h1)
    subst this
    cases fuel₂ <;> rfl
  | succ n ih =>
    intro fuel₂ s h1 h2
    cases s with
    | nil => cases fuel₂ <;> rfl
    | cons c t =>
      have hlen : t.length + 1 ≤ fuel₂ := by simpa using h2
      rcases Nat.exists_eq_add_of_le hlen with ⟨k, hk⟩
      have hf2 : fuel₂ = (t.length + k) + 1 := by omega
      subst hf2
      simp only [rsFuel]
      by_cases hp : sentinelChars.isPrefixOf (c :: t) = true
      · rw [if_pos hp, if_pos hp]
        have hsl : sentinelChars.length = 15 := rfl
        have hd : ((c :: t).drop sentinelChars.length).length ≤ n := by
          rw [List.length_drop, hsl, List.length_cons]
          simp at h1
          omega
        have hd2 : ((c :: t).drop sentinelChars.length).length ≤ t.length + k := by
          rw [List.length_drop, hsl, List.length_cons]
          omega
        rw [ih _ _ hd hd2]
      · rw [if_neg hp, if_neg hp]
        have ht1 : t.length ≤ n := by simp at h1; omega
        have ht2 : t.length ≤ t.length + k := by omega
        rw [ih _ _ ht1 ht2]

theorem rs_cons (c : Char) (t : List Char) (h : c ≠ ':') :
    replaceSentinel (c :: t) = c :: replaceSentinel t := by
  have hp : sentinelChars.isPrefixOf (c :: t) = false := by
    have : (':' == c) = false := by
      simp [beq_eq_false_iff_ne]
      exact fun hh => h hh.symm
    simp [sentinelChars, List.isPrefixOf, this]
  show rsFuel (c :: t).length (c :: t) = _
  rw [List.length_cons]
  simp only [rsFuel, hp, Bool.false_eq_true, if_false]
  rfl

theorem rs_sentinel (t : List Char) :
    replaceSentinel (sentinelChars ++ t) = '.' :: '*' :: replaceSentinel t := by
  have hlen : (sentinelChars ++ t).length = (14 + t.length) + 1 := by
    simp [sentinelChars]
    omega
  show rsFuel (sentinelChars ++ t).length (sentinelChars ++ t) = _
  rw [hlen]
  have hform : sentinelChars ++ t = ':' :: (sentinelChars.drop 1 ++ t) := rfl
  rw [hform]
  simp only [rsFuel]
  rw [← hform, if_pos (isPrefixOf_append_self sentinelChars t)]
  rw [List.drop_left]
  have := rsFuel_irrel (14 + t.length) t.length t (by omega) (le_refl _)
  rw [this]
  rfl

theorem rs_append_no_colon (a b : List Char) (h : ∀ c ∈ a, c ≠ ':') :
    replaceSentinel (a ++ b) = a ++ replaceSentinel b := by
  induction a with
  | nil => simp
  | cons c a' ih =>
    rw [List.cons_append, rs_cons c _ (h c (by simp)),
      ih (fun d hd => h d (by simp [hd]))]
    rfl

theorem pr_esc (d : Char) (rest : List Char) (acc : List RItem) :
    parseRegex ('\\' :: d :: rest) acc = parseRegex rest (acc ++ [RItem.lit d]) := by
  simp [parseRegex, parseChar]

theorem pr_class (rest : List Char) (acc : List RItem) :
    parseRegex ('[' :: '^' :: '/' :: ']' :: '*' :: rest) acc =
      parseRegex rest (acc ++ [RItem.nonSlashStar]) := by
  simp [parseRegex, parseChar]

theorem pr_dotstar (rest : List Char) (acc : List RItem) :
    parseRegex ('.' :: '*' :: rest) acc = parseRegex rest (acc ++ [RItem.dotStar]) := by
  simp [parseRegex, parseChar]

theorem pr_lit (c : Char) (rest : List Char) (acc : List RItem)
    (h1 : c ≠ '\\') (h2 : c ≠ '[') (h3 : c ≠ '.') (h4 : c ≠ '?')
    (h5 : c ∉ rawMetaChars) :
    parseRegex (c :: rest) acc = parseRegex rest (acc ++ [RItem.lit c]) := by
  simp [parseRegex, parseChar, h1, h2, h3, h4, h5]

theorem sgi_dstar (rest : List Char) :
    specGlobItems ('*' :: '*' :: rest) = RItem.dotStar :: specGlobItems rest := by
  simp [specGlobItems]

theorem sgi_star_nil : specGlobItems ['*'] = [RItem.nonSlashStar] := rfl

theorem sgi_star_cons (d : Char) (rest : List Char) (hd : d ≠ '*') :
    specGlobItems ('*' :: d :: rest) = RItem.nonSlashStar :: specGlobItems (d :: rest) := by
  simp [specGlobItems, hd]

theorem sgi_lit (c : Char) (rest : List Char) (h : c ≠ '*') :
    specGlobItems (c :: rest) = RItem.lit c :: specGlobItems rest := by
  cases rest with
  | nil => simp [specGlobItems, h]
  | cons d r => simp [specGlobItems, h]

theorem esc_not_star_head (r : List Char) (h : ∀ u, r ≠ '*' :: u) :
    escapeSpecials r = [] ∨ ∃ d t', escapeSpecials r = d :: t' ∧ d ≠ '*' := by
  cases r with
  | nil => exact .inl rfl
  | cons c r' =>
    right
    by_cases hc : c ∈ regexEscapeSet
    · exact ⟨'\\', c :: escapeSpecials r', by simp [escapeSpecials, hc], by decide⟩
    · have hcs : c ≠ '*' := fun hh => (h r') (by rw [hh])
      exact ⟨c, escapeSpecials r', by simp [escapeSpecials, hc], hcs⟩

theorem pipeline_parse (n : Nat) : ∀ (g : List Char), g.length ≤ n →
    '?' ∉ g → ':' ∉ g → ∀ acc : List RItem,
    parseRegex (replaceSentinel (starExpand (replaceDoubleStar (escapeSpecials g)))) acc
      = some (acc ++ specGlobItems g) := by
  induction n with
  | zero =>
    intro g hg _ _ acc
    have : g = [] := List.length_eq_zero.mp (Nat.le_zero.mp hg)
    subst this
    show parseRegex [] acc = some (acc ++ specGlobItems [])
    rw [show specGlobItems [] = [] from rfl, List.append_nil]
    rfl
  | succ n ih =>
    intro g hg hq hcol acc
    cases g with
    | nil =>
      show parseRegex [] acc = some (acc ++ specGlobItems [])
      rw [show specGlobItems [] = [] from rfl, List.append_nil]
      rfl
    | cons c r =>
      have hq' : '?' ∉ r := fun hh => hq (List.mem_cons_of_mem _ hh)
      have hcol' : ':' ∉ r := fun hh => hcol (List.mem_cons_of_mem _ hh)
      have hr_len : r.length ≤ n := by simp at hg; omega
      by_cases hstar : c = '*'
      · subst hstar
        cases r with
        | nil =>
          have hconc : replaceSentinel (starExpand (replaceDoubleStar (escapeSpecials ['*'])))
              = ['[', '^', '/', ']', '*'] := by decide
          rw [hconc, pr_class]
          rw [show parseRegex [] (acc ++ [RItem.nonSlashStar])
              = some (acc ++ [RItem.nonSlashStar]) from rfl]
          rw [sgi_star_nil]
        | cons d r' =>
          have hq'' : '?' ∉ r' := fun hh => hq' (List.mem_cons_of_mem _ hh)
          have hcol'' : ':' ∉ r' := fun hh => hcol' (List.mem_cons_of_mem _ hh)
          by_cases hd : d = '*'
          · subst hd
            have hesc : escapeSpecials ('*' :: '*' :: r')
                = '*' :: '*' :: escapeSpecials r' := by
              simp [escapeSpecials, star_not_special]
            rw [hesc, rds_dstar, se_append, se_sentinel, rs_sentinel, pr_dotstar]
            have hr'_len : r'.length ≤ n := by simp at hg; omega
            rw [ih r' hr'_len hq'' hcol'' (acc ++ [RItem.dotStar])]
            rw [sgi_dstar]
            simp
          · have hesc : escapeSpecials ('*' :: d :: r')
                = '*' :: escapeSpecials (d :: r') := by
              simp [escapeSpecials, star_not_special]
            have hrds : replaceDoubleStar ('*' :: escapeSpecials (d :: r'))
                = '*' :: replaceDoubleStar (escapeSpecials (d :: r')) := by
              rcases esc_not_star_head (d :: r')
                  (fun u hu => hd (List.head_eq_of_cons_eq hu)) with h0 | ⟨e, t', het, hene⟩
              · rw [h0]; rfl
              · rw [het, rds_star_cons_ne e t' hene, ← het]
            have hse : starExpand ('*' :: replaceDoubleStar (escapeSpecials (d :: r')))
                = ['[', '^', '/', ']', '*']
                  ++ starExpand (replaceDoubleStar (escapeSpecials (d :: r'))) := by
              simp [starExpand]
            rw [hesc, hrds, hse, rs_append_no_colon _ _ (by decide)]
            simp only [List.cons_append, List.nil_append]
            rw [pr_class]
            have hlen2 : (d :: r').length ≤ n := by simp at hg ⊢; omega
            rw [ih (d :: r') hlen2 hq' hcol' (acc ++ [RItem.nonSlashStar])]
            rw [sgi_star_cons d r' hd]
            simp
      · have hq_c : c ≠ '?' := fun hh => hq (by rw [hh]; exact List.mem_cons_self _ _)
        have hcol_c : c ≠ ':' := fun hh => hcol (by rw [hh]; exact List.mem_cons_self _ _)
        by_cases hcs : c ∈ regexEscapeSet
        · have hesc : escapeSpecials (c :: r) = '\\' :: c :: escapeSpecials r := by
            simp [escapeSpecials, hcs]
          have hb1 : ('\\' : Char) ≠ '*' := by decide
          have hb2 : ('\\' : Char) ≠ ':' := by decide
          rw [hesc, rds_cons '\\' _ hb1, rds_cons c _ hstar]
          have hse : starExpand ('\\' :: c :: replaceDoubleStar (escapeSpecials r))
              = '\\' :: c :: starExpand (replaceDoubleStar (escapeSpecials r)) := by
            simp [starExpand, hb1, hstar]
          rw [hse, rs_cons '\\' _ hb2, rs_cons c _ hcol_c, pr_esc]
          rw [ih r hr_len hq' hcol' (acc ++ [RItem.lit c])]
          rw [sgi_lit c r hstar]
          simp
        · have hesc : escapeSpecials (c :: r) = c :: escapeSpecials r := by
            simp [escapeSpecials, hcs]
          rw [hesc, rds_cons c _ hstar]
          have hse : starExpand (c :: replaceDoubleStar (escapeSpecials r))
              = c :: starExpand (replaceDoubleStar (escapeSpecials r)) := by
            simp [starExpand, hstar]
          rw [hse, rs_cons c _ hcol_c]
          have h1 : c ≠ '\\' := fun hh => hcs (by rw [hh]; decide)
          have h2 : c ≠ '[' := fun hh => hcs (by rw [hh]; decide)
          have h3 : c ≠ '.' := fun hh => hcs (by rw [hh]; decide)
          have h5 : c ∉ rawMetaChars := by
            intro hmem
            simp [rawMetaChars] at hmem
            rcases hmem with rfl|rfl|rfl|rfl|rfl|rfl|rfl|rfl|rfl|rfl|rfl|rfl|rfl
            · exact hcs (by decide)
            · exact hstar rfl
            · exact hcs (by decide)
            · exact hq_c rfl
            · exact hcs (by decide)
            · exact hcs (by decide)
            · exact hcs (by decide)
            · exact hcs (by decide)
            · exact hcs (by decide)
            · exact hcs (by decide)
            · exact hcs (by decide)
            · exact hcs (by decide)
            · exact hcs (by decide)
          rw [pr_lit c _ acc h1 h2 h3 hq_c h5]
          rw [ih r hr_len hq' hcol' (acc ++ [RItem.lit c])]
          rw [sgi_lit c r hstar]
          simp

theorem rmatch_lits (cs : List Char) : ∀ l : List Char,
    (rmatch (cs.map RItem.lit) l = true ↔ l = cs) := by
  induction cs with
  | nil =>
    intro l
    cases l <;> simp [rmatch]
  | cons c cs ih =>
    intro l
    cases l with
    | nil => simp [rmatch]
    | cons x xs =>
      simp only [List.map_cons, rmatch, Bool.and_eq_true, beq_iff_eq, List.cons.injEq, ih]
      constructor
      · rintro ⟨h1, h2⟩
        exact ⟨h1.symm, h2⟩
      · rintro ⟨h1, h2⟩
        exact ⟨h1.symm, h2⟩

theorem globToRegex_eq_spec (p : String) (h1 : '?' ∉ p.toList) (h2 : ':' ∉ p.toList) :
    globToRegex p = some (specGlobItems p.toList) := by
  show parseRegex
    (replaceSentinel (starExpand (replaceDoubleStar (escapeSpecials p.toList)))) []
    = some (specGlobItems p.toList)
  rw [pipeline_parse p.toList.length p.toList (le_refl _) h1 h2 []]
  rfl

theorem mapM_globToRegex_eq (patterns : List String)
    (h : ∀ p ∈ patterns, '?' ∉ p.toList ∧ ':' ∉ p.toList) :
    patterns.mapM globToRegex =
      some (patterns.map (fun p => specGlobItems p.toList)) := by
  induction patterns with
  | nil => rfl
  | cons p ps ih =>
    have hp := h p (by simp)
    rw [List.mapM_cons, globToRegex_eq_spec p hp.1 hp.2,
      ih (fun q hq => h q (by simp [hq]))]
    rfl

/-- C4 (amended): the pattern matcher treats `*` as any run within one
path segment, `**` as any run of non-line-terminator characters across
segments (the `RegExp` is built without flags, so the `.` of the `.*`
that `**` becomes excludes LF, CR, U+2028, U+2029), and — for patterns
free of `?` and of `:` — every other character as a literal, anchored to
the whole destination, an entry being selected when at least one pattern
matches.  The exceptions the code forces: an unescaped `?` acts as a
regex zero-or-one quantifier on the preceding item (a leading `?`, or a
`?` right after a lazy quantifier, makes the pattern invalid), and `:`
can take part in the internal `::DOUBLE_STAR::` sentinel, which a
pattern's own text can form or disturb. -/
theorem glob_matcher_amended_spec :
    (∀ p : String, '?' ∉ p.toList → ':' ∉ p.toList →
      globToRegex p = some (specGlobItems p.toList))
    ∧ rmatch ((globToRegex "a/*.ts").getD []) "a/b.ts".toList = true
    ∧ rmatch ((globToRegex "a/*.ts").getD []) "a/b/c.ts".toList = false
    ∧ rmatch ((globToRegex "a/**").getD []) "a/b/c.ts".toList = true
    ∧ rmatch ((globToRegex "a/**").getD []) "a/x".toList = true
    ∧ rmatch ((globToRegex "a/**").getD []) "a/b\nc".toList = false
    ∧ (∀ s : String, rmatch ((globToRegex "lit.txt").getD []) s.toList = true ↔
        s.toList = "lit.txt".toList)
    ∧ (∀ patterns : List String,
        (∀ p ∈ patterns, '?' ∉ p.toList ∧ ':' ∉ p.toList) →
        ∀ changes : List SandboxChangeEntry,
        filterChangesByPatterns changes patterns =
          some (changes.filter (fun c =>
            patterns.any (fun p =>
              rmatch (specGlobItems p.toList) c.destination.toList)))) := by
  refine ⟨globToRegex_eq_spec, rfl, rfl, rfl, rfl, rfl, ?_, ?_⟩
  · intro s
    have hlit : (globToRegex "lit.txt").getD [] = ("lit.txt".toList).map RItem.lit := rfl
    rw [hlit]
    exact rmatch_lits _ _
  · intro patterns h changes
    rw [filterChangesByPatterns, mapM_globToRegex_eq patterns h]
    refine congrArg some (List.filter_congr ?_)
    intro c _
    induction patterns with
    | nil => rfl
    | cons q qs ih =>
      simp only [List.map_cons, List.any_cons,
        ih (fun p hp => h p (by simp [hp]))]

/-- Witness for `glob_matcher_amended_spec` at a concrete pattern. -/
theorem glob_matcher_amended_spec_witness :
    globToRegex "a/b" = some (specGlobItems "a/b".toList) :=
  glob_matcher_amended_spec.1 "a/b" (by decide) (by decide)

/-- C4 counterexample: by the claim every non-star character matches only
itself, so pattern `a?` must select an entry with destination `a?` (the
spec-side matcher agrees); but the code leaves `?` unescaped, producing
regex `^a?$`, which matches `a` and the empty string and not `a?`, so the
entry is not selected. -/
theorem glob_matcher_claim_counterexample :
    rmatch (specGlobItems "a?".toList) "a?".toList = true
    ∧ filterChangesByPatterns
        [{ destination := "a?", operation := "modify" }] ["a?"] = some []
    ∧ globToRegex "a?" = some [RItem.optLit 'a']
    ∧ rmatch [RItem.optLit 'a'] "a?".toList = false
    ∧ rmatch [RItem.optLit 'a'] "a".toList = true
    ∧ rmatch [RItem.optLit 'a'] "".toList = true := by
  refine ⟨rfl, rfl, rfl, rfl, rfl, rfl⟩
